import Mathlib

/-!
Verification development for `epubgrep.py`, a recursive pattern scanner for
plain files and zip (EPUB) archives.

The development shallowly embeds the two cores of the program:

* the preview renderer `EpubGrep.print_previews` (span merging with lead/lag
  context windows, tag stripping via `tag_pattern.sub`, divider placement,
  and the `_wrap` line-wrapping loop), and
* the traversal engine `EpubGrep._searchdir` / `EpubGrep._searchcontents` /
  `EpubGrep.read_pkzip` (cycle-safe walking keyed on canonical paths, size
  filtering, zip expansion, match counting and report emission).

Byte strings are modelled as `List ℕ` (one entry per byte).  The regex engine
(`re` module) and the zip parser (`zipfile` module) are external libraries,
not code of this repository: they enter the model as parameters (`finditer`
for the compiled search pattern, `zipOracle` for zip extraction), while every
operation the repository itself performs on their results is embedded
faithfully from the source.
-/

/-- A match span over one blob, as produced by `pattern.finditer`:
`s` is `m.start(0)` and `e` is `m.end(0)`. -/
structure MatchSpan where
  s : ℕ
  e : ℕ
deriving DecidableEq

/-- One entry of the `parts` list of `print_previews`.  The source uses the
tuple `(start, end, string, isContext)`; all parts built during one call to
`print_previews` carry the same `string` object (the blob being previewed:
every match comes from `pattern.finditer(c)` for that one `c`), so the model
keeps the blob once, as the `content` argument of the functions below, and the
source's `parts[i][2] is m.string` guard is identically true. -/
structure PreviewPart where
  s : ℕ
  e : ℕ
  isCtx : Bool
deriving DecidableEq

/-- Python slice `content[s:e]` for nonnegative indices: clamps to the list
and yields `[]` when `e ≤ s`. -/
def pySlice (content : List ℕ) (s e : ℕ) : List ℕ :=
  (content.drop s).take (e - s)

/-- Source `_match_to_parts(m)`: the leading context window
`(max(m.start(0) - lead, 0), m.start(0))` (truncated subtraction on `ℕ` is
exactly `max(· - lead, 0)`), the match itself, and the trailing context window
`(m.end(0), m.end(0) + lag)`. -/
def match_to_parts (lead lag : ℕ) (m : MatchSpan) : List PreviewPart :=
  [⟨m.s - lead, m.s, true⟩, ⟨m.s, m.e, false⟩, ⟨m.e, m.e + lag, true⟩]

/-- The merging loop of `print_previews` (source lines 123-131).  `i` is the
index of the current trailing context part (the source maintains
`i = len(parts) - 1`).  If the next match starts strictly before the end of
the current trailing context window (`parts[i][1] > m.start(0)`), the window
is shrunk to end at the new match's start and a match part plus a fresh
trailing window are appended; otherwise the three-part expansion of the new
match is appended unchanged. -/
def mergeLoop (lead lag : ℕ) : List PreviewPart → ℕ → List MatchSpan → List PreviewPart
  | parts, _, [] => parts
  | parts, i, m :: rest =>
    let cur := parts.getD i ⟨0, 0, true⟩
    if m.s < cur.e then
      mergeLoop lead lag
        (parts.set i ⟨cur.s, m.s, cur.isCtx⟩ ++
          [⟨m.s, m.e, false⟩, ⟨m.e, m.e + lag, true⟩]) (i + 2) rest
    else
      mergeLoop lead lag (parts ++ match_to_parts lead lag m) (i + 3) rest

/-- Builds the full `parts` list of `print_previews` from the sorted match
list: the first match is expanded by `_match_to_parts`, the rest are folded in
by the merging loop starting at `i = 2`. -/
def buildParts (lead lag : ℕ) : List MatchSpan → List PreviewPart
  | [] => []
  | m :: rest => mergeLoop lead lag (match_to_parts lead lag m) 2 rest

/-- Splits a byte list at its first `62` (the byte of the closing angle
bracket): `some (p, q)` means the input is `p ++ 62 :: q` with no `62` in `p`;
`none` means the input contains no `62`. -/
def splitAtGt : List ℕ → Option (List ℕ × List ℕ)
  | [] => none
  | x :: xs =>
    if x = 62 then some ([], xs)
    else (splitAtGt xs).map (fun pq => (x :: pq.1, pq.2))

/-- Fueled scanner for `tag_pattern.sub(b'', block)` at positions `> 0`, where
the anchored alternative `^[^<>]*>` can no longer apply.  At a byte `60`
(opening angle bracket) the engine tries `<[^>]+>`: with backtracking this
matches exactly when the first later `62` leaves a nonempty body, and the scan
resumes after that `62`.  Otherwise it tries `<[^>]*$`: since `[^>]` also
matches a newline, the greedy run reaches the end of the input whenever no
`62` follows, so this alternative fires exactly when no `62` follows, and it
consumes the rest of the input.  When no alternative matches, the engine keeps
the byte and advances one position.  The fuel argument only drives the
recursion; `input.length` fuel always suffices. -/
def stripFromF : ℕ → List ℕ → List ℕ
  | 0, _ => []
  | _ + 1, [] => []
  | f + 1, c :: rest =>
    if c = 60 then
      match splitAtGt rest with
      | some pq => if 1 ≤ pq.1.length then stripFromF f pq.2 else c :: stripFromF f rest
      | none => []
    else c :: stripFromF f rest

/-- Scanning continuation of `tag_pattern.sub` from any position past 0. -/
def stripFrom (l : List ℕ) : List ℕ :=
  stripFromF l.length l

/-- Full model of `EpubGrep.tag_pattern.sub(b'', block)` with
`tag_pattern = ^[^<>]*>|<[^>]+>|<[^>]*$`.  At position 0 the engine first
tries the anchored alternative: the greedy `[^<>]*` takes the maximal run of
non-angle bytes and must be followed by `62`; after this match (or its
failure) scanning continues with the unanchored alternatives. -/
def stripTags (l : List ℕ) : List ℕ :=
  let run := l.takeWhile (fun c => c ≠ 60 && c ≠ 62)
  match l.drop run.length with
  | 62 :: tail => stripFrom tail
  | _ => stripFrom l

/-- Python `bytes.strip()` whitespace test: space and `\t\n\x0b\x0c\r`. -/
def isPySpace (c : ℕ) : Bool :=
  c = 9 || c = 10 || c = 11 || c = 12 || c = 13 || c = 32

/-- Python `block.strip()`: drop whitespace bytes from both ends. -/
def pyTrim (l : List ℕ) : List ℕ :=
  ((l.dropWhile isPySpace).reverse.dropWhile isPySpace).reverse

/-- What one call of `_print_block(block)` (source lines 106-115) does, in
the `colorize = False` mode the renderer model embeds.  `color_prefix` is
initialized to the *str* `''` and becomes a bytes slice only when the block
starts with `b'\033['` (bytes `27, 91`):

* when the block does not start with `27, 91`: after tag-stripping and
  trimming, an empty block returns early (`silent`, nothing printed); a
  non-empty block reaches line 113, `color_prefix + block`, which
  concatenates str with bytes and raises `TypeError` (`raised`) — the block
  text is never printed;
* when the block does start with `27, 91`: `block.index(b'm')` raises
  `ValueError` if no byte `109` is present (`raised`, before the strip);
  otherwise the prefix is bytes, an empty stripped block returns early, and
  a non-empty one is actually printed (`printed`, carrying the bytes handed
  to `_wrap`; wrapping and utf-8 decoding are modelled separately and do not
  change whether output appears).

A `raised` outcome propagates out of `print_previews` and `_searchcontents`
into `_searchdir`'s exception handler, which prints a `Failed to read`
diagnostic for the unit's path. -/
inductive BlockOut where
  | silent : BlockOut
  | printed : List ℕ → BlockOut
  | raised : BlockOut
deriving DecidableEq

/-- Source `_print_block(block)`; see `BlockOut` for the three outcomes. -/
def print_block (block : List ℕ) : BlockOut :=
  if block.take 2 = [27, 91] then
    if 109 ∈ block then
      let b := pyTrim (stripTags block)
      if b = [] then BlockOut.silent
      else BlockOut.printed (block.take (block.indexOf 109 + 1) ++ b)
    else BlockOut.raised
  else
    let b := pyTrim (stripTags block)
    if b = [] then BlockOut.silent else BlockOut.raised

/-- One printed item of the preview renderer: a `---` divider line or a
rendered block. -/
inductive POut where
  | divider : POut
  | text : List ℕ → POut
deriving DecidableEq

/-- Result of the rendering loop: it either runs to completion having
printed `outs`, or an exception from `_print_block` aborts it after `outs`
was printed (the `---` of a flush is printed before `_print_block` runs, so
it survives the abort). -/
inductive RenderResult where
  | ok : List POut → RenderResult
  | raised : List POut → RenderResult
deriving DecidableEq

/-- The rendering loop of `print_previews` (source lines 133-157) with
`colorize = False`: parts are concatenated into `block`; a context part
immediately following another context part marks a block boundary, at which
the accumulated block is flushed: the divider is printed first (when
something was printed already), then `_print_block` runs — raising aborts
the loop here — and then the printed-flag is set, unconditionally, whether
or not `_print_block` printed anything.  After the loop the final block is
flushed the same way. -/
def renderGo (content : List ℕ) :
    List PreviewPart → List ℕ → Bool → Bool → List POut → RenderResult
  | [], block, _, printed, outs =>
    let outs1 := if printed then outs ++ [POut.divider] else outs
    (match print_block block with
     | BlockOut.silent => RenderResult.ok outs1
     | BlockOut.printed t => RenderResult.ok (outs1 ++ [POut.text t])
     | BlockOut.raised => RenderResult.raised outs1)
  | p :: ps, block, lastCtx, printed, outs =>
    if p.isCtx = false then
      renderGo content ps (block ++ pySlice content p.s p.e) false printed outs
    else if lastCtx then
      let outs1 := if printed then outs ++ [POut.divider] else outs
      match print_block block with
      | BlockOut.silent =>
        renderGo content ps (pySlice content p.s p.e) true true outs1
      | BlockOut.printed t =>
        renderGo content ps (pySlice content p.s p.e) true true
          (outs1 ++ [POut.text t])
      | BlockOut.raised => RenderResult.raised outs1
    else
      renderGo content ps (block ++ pySlice content p.s p.e) true printed outs

/-- The sort key of `matches.sort(key=lambda m: m.start(0))`. -/
def spanLE (a b : MatchSpan) : Prop := a.s ≤ b.s

instance : DecidableRel spanLE := fun a b => Nat.decLe a.s b.s

/-- Outcome of one `print_previews(matches, printed_something_already)`
call: `ok outs ret` means the call printed `outs` and returned `ret`
(`False` for an empty match list, `True` otherwise); `raised outs` means a
`_print_block` exception escaped after `outs` was printed. -/
inductive PreviewResult where
  | ok : List POut → Bool → PreviewResult
  | raised : List POut → PreviewResult
deriving DecidableEq

/-- Source `print_previews(matches, printed_something_already)`.  Python's
`list.sort` is a stable sort; the model uses `List.insertionSort`, which is
also stable, hence produces the identical ordering. -/
def print_previews (lead lag : ℕ) (content : List ℕ) (ms : List MatchSpan)
    (printed0 : Bool) : PreviewResult :=
  if ms.length < 1 then PreviewResult.ok [] false
  else
    match renderGo content (buildParts lead lag (List.insertionSort spanLE ms))
      [] false printed0 [] with
    | RenderResult.ok outs => PreviewResult.ok outs true
    | RenderResult.raised outs => PreviewResult.raised outs

/-- Clamp one Python slice/find bound for a string of length `n`: a negative
index counts from the end (floored at 0), a nonnegative one is capped at `n`. -/
def pyClamp (n : ℤ) (i : ℤ) : ℕ :=
  if i < 0 then (max (n + i) 0).toNat else (min i n).toNat

/-- Python `block[a:b]` on a decoded string, with full negative-index
semantics. -/
def pySliceI (block : List Char) (a b : ℤ) : List Char :=
  let s := pyClamp block.length a
  let e := pyClamp block.length b
  (block.drop s).take (e - s)

/-- Python `block.find('\n', a, b)`: the least absolute index of a newline in
the clamped range `[a, b)`, or `-1`. -/
def pyFindNl (block : List Char) (a b : ℤ) : ℤ :=
  let s := pyClamp block.length a
  let e := pyClamp block.length b
  match ((block.drop s).take (e - s)).findIdx? (fun c => c = '\n') with
  | some k => (s : ℤ) + k
  | none => -1

/-- One pass of the `while offs <= len(block)` loop of `_wrap` (source lines
95-104), made total with fuel: `none` means the fuel ran out, i.e. the loop
performed more iterations than the fuel allows.  Each iteration looks for a
newline in the window `[offs, offs + output_width - 4)`, falls back to the
window end, emits the 4-space-indented slice, and advances `offs` past the
break (skipping the newline when the break landed on one).  The returned
lines are joined with newlines by the source; the model keeps the list. -/
def wrapGo (w : ℤ) (block : List Char) :
    ℕ → ℤ → List (List Char) → Option (List (List Char))
  | 0, _, _ => none
  | f + 1, offs, lines =>
    if offs ≤ (block.length : ℤ) then
      let idx0 := pyFindNl block offs (offs + w - 4)
      let idx := if idx0 = -1 then offs + w - 4 else idx0
      let line := [' ', ' ', ' ', ' '] ++ pySliceI block offs idx
      let offs' := if pySliceI block idx (idx + 1) = ['\n'] then idx + 1 else idx
      wrapGo w block f offs' (lines ++ [line])
    else some lines

/-- Source `_wrap(block)` with `output_width = w`, run with the given fuel
from `offs = 0`. -/
def pyWrap (w : ℤ) (block : List Char) (fuel : ℕ) : Option (List (List Char)) :=
  wrapGo w block fuel 0 []

/-! ### The traversal engine -/

/-- What `os.stat` reveals about a canonical inode: a directory with its
entry names (`os.listdir`), a regular file with its byte content
(`st_size` is the content length), or any other mode, for which
`_searchdir` does nothing. -/
inductive NodeKind where
  | dir : List String → NodeKind
  | reg : List ℕ → NodeKind
  | other : NodeKind
deriving DecidableEq

/-- The filesystem as the walker observes it.  Canonical (symlink-resolved)
paths are numbered `0, ..., n-1`; `kind i` is what `os.stat` reports for
inode `i`; `step i name` is the inode that `os.path.realpath` resolves entry
`name` of directory `i` to (symbolic links make this an arbitrary graph, so
cycles and many names for one inode are representable); `zipOracle` is the
external `zipfile` library: `some members` is a successful parse into
`(member_name, member_bytes)` pairs in archive order (with `file_size` equal
to the byte length), `none` is any parse failure (`zipfile` raising). -/
structure SearchFS where
  n : ℕ
  kind : ℕ → NodeKind
  step : ℕ → String → ℕ
  zipOracle : List ℕ → Option (List (String × List ℕ))

/-- The run configuration of one `EpubGrep` object: `max_size`,
`min_matches`, and the compiled pattern, entering as the external `re`
engine's `finditer` returning the non-overlapping match spans for a blob. -/
structure Cfg where
  max_size : ℕ
  min_matches : ℕ
  finditer : List ℕ → List MatchSpan

/-- Everything the walker prints: a `unit` records that `_searchcontents`
was invoked for a file (the spec's Source Unit), with its display path, its
canonical inode and its content blobs; a `report` is a result line on
stdout; a `diag` is a "Failed to open" line on stderr naming the offending
path. -/
inductive WalkEvent where
  | unit : String → ℕ → List (List ℕ) → WalkEvent
  | report : String → WalkEvent
  | diag : String → WalkEvent
deriving DecidableEq

/-- Python `z.read(member.filename)`: `zipfile` resolves reads by name
through `NameToInfo`, which is filled by assignment in central-directory
order, so a duplicate name maps to the LAST entry carrying it — hence the
content of the last member with that name. -/
def zread (ms : List (String × List ℕ)) (name : String) : List ℕ :=
  ((ms.reverse.find? (fun m => m.1 == name)).map Prod.snd).getD []

/-- The member loop of `read_pkzip` (source lines 73-76): members whose
`file_size` exceeds `max_size` are skipped, the rest are read by name. -/
def pkContents (cfg : Cfg) (ms : List (String × List ℕ)) : List (List ℕ) :=
  (ms.filter (fun m => m.2.length ≤ cfg.max_size)).map (fun m => zread ms m.1)

/-- Source `read_pkzip(path, c)`: on a successful parse it returns the kept
member contents (and prints nothing); on any exception it prints a
`Failed to open <path>: <cause>` diagnostic and returns `False`, modelled as
`none`. -/
def read_pkzip (cfg : Cfg) (fs : SearchFS) (path : String) (c : List ℕ) :
    Option (List (List ℕ)) × List WalkEvent :=
  match fs.zipOracle c with
  | some ms => (some (pkContents cfg ms), [])
  | none => (none, [WalkEvent.diag path])

/-- The counting loop of `_searchcontents` (source lines 161-166):
`n = n + len(list(pattern.finditer(c)))` over the blobs. -/
def countLoop (fd : List ℕ → List MatchSpan) : ℕ → List (List ℕ) → ℕ
  | n, [] => n
  | n, c :: cs => countLoop fd (n + (fd c).length) cs

/-- Source `_searchcontents(path, contents)` with previews disabled: counts
matches over all blobs and prints the single line `"<path>: <n>"` exactly
when `n >= min_matches`. -/
def searchcontents (cfg : Cfg) (path : String) (contents : List (List ℕ)) :
    List WalkEvent :=
  let n := countLoop cfg.finditer 0 contents
  if cfg.min_matches ≤ n then [WalkEvent.report (path ++ ": " ++ toString n)]
  else []

/-- Whether the content starts with the zip local-file-header signature
`PK\x03\x04` (source line 205). -/
def isZip (c : List ℕ) : Bool := c.take 4 == [80, 75, 3, 4]

/-- Source `_searchdir(path)` (lines 183-210).  The canonical inode of the
argument path is `i` (`os.path.realpath`); the already-visited check and
insertion, the stat dispatch, the size gate, the zip-signature dispatch and
the `if content:` truthiness test (both `False` and an empty member list skip
`_searchcontents`) are modelled directly.  Directory recursion threads the
visited set and concatenates the children's printed events in listing order
(`randomize` only permutes that order and is outside the claims).  The fuel
argument makes the recursion structural; `none` means the fuel was
exhausted, and any fuel exceeding the number of unvisited inodes is enough
(proved below). -/
def searchdir (cfg : Cfg) (fs : SearchFS) :
    ℕ → Finset ℕ → String → ℕ → Option (Finset ℕ × List WalkEvent)
  | 0, _, _, _ => none
  | f + 1, v, path, i =>
    if i ∈ v then some (v, [])
    else
      match fs.kind i with
      | NodeKind.dir entries =>
        entries.foldl
          (fun st s =>
            st.bind (fun p =>
              (searchdir cfg fs f p.1 (path ++ "/" ++ s) (fs.step i s)).map
                (fun q => (q.1, p.2 ++ q.2))))
          (some (insert i v, []))
      | NodeKind.reg c =>
        if cfg.max_size < c.length then some (insert i v, [])
        else if isZip c then
          match read_pkzip cfg fs path c with
          | (some bs, evs) =>
            if bs = [] then some (insert i v, evs)
            else some (insert i v, evs ++ WalkEvent.unit path i bs :: searchcontents cfg path bs)
          | (none, evs) => some (insert i v, evs)
        else some (insert i v, WalkEvent.unit path i [c] :: searchcontents cfg path [c])
      | NodeKind.other => some (insert i v, [])

/-- The directory fold of `searchdir`, factored out for reasoning: runs the
children `entries` of directory `i` in order, starting from the
visited-set/events state `st`. -/
def goChildren (cfg : Cfg) (fs : SearchFS) (f : ℕ) (path : String) (i : ℕ)
    (st : Option (Finset ℕ × List WalkEvent)) (entries : List String) :
    Option (Finset ℕ × List WalkEvent) :=
  entries.foldl
    (fun st s =>
      st.bind (fun p =>
        (searchdir cfg fs f p.1 (path ++ "/" ++ s) (fs.step i s)).map
          (fun q => (q.1, p.2 ++ q.2))))
    st

/-- The canonical inodes of the units among a list of events. -/
def unitsOf (evs : List WalkEvent) : List ℕ :=
  evs.filterMap (fun e =>
    match e with
    | WalkEvent.unit _ j _ => some j
    | _ => none)

/-- Reachability along directory entries (through `realpath`, i.e. following
symlinks), from inode `i`. -/
inductive Reach (fs : SearchFS) : ℕ → ℕ → Prop where
  | refl (i : ℕ) : Reach fs i i
  | step {i j : ℕ} {entries : List String} {s : String} :
      fs.kind i = NodeKind.dir entries → s ∈ entries →
      Reach fs (fs.step i s) j → Reach fs i j

/-- The files for which `_searchdir` reaches the `_searchcontents` call: a
regular file within the size cap which either is not zip-classified, or
expands (via the external zip library) into a nonempty kept-member list. -/
def eligible (cfg : Cfg) (fs : SearchFS) (j : ℕ) : Prop :=
  match fs.kind j with
  | NodeKind.reg c =>
    c.length ≤ cfg.max_size ∧
      (isZip c = true →
        ∃ ms, fs.zipOracle c = some ms ∧ pkContents cfg ms ≠ [])
  | _ => False

/-- Non-overlapping leftmost matching of a literal byte pattern, one
instantiation of the external `finditer` parameter (what `re` does for a
pattern without metacharacters), used by concrete examples below.  Empty
patterns are not used. -/
def litFindF (pat : List ℕ) : ℕ → List ℕ → ℕ → List MatchSpan
  | 0, _, _ => []
  | _ + 1, [], _ => []
  | f + 1, c :: rest, i =>
    if pat ≠ [] ∧ pat.isPrefixOf (c :: rest) then
      ⟨i, i + pat.length⟩ :: litFindF pat f ((c :: rest).drop pat.length) (i + pat.length)
    else litFindF pat f rest (i + 1)

/-- Literal-pattern `finditer` over a blob. -/
def litFind (pat c : List ℕ) : List MatchSpan :=
  litFindF pat c.length c 0

theorem read_pkzip_some (cfg : Cfg) (fs : SearchFS) (path : String)
    (c : List ℕ) (bs : List (List ℕ)) (devs : List WalkEvent)
    (h : read_pkzip cfg fs path c = (some bs, devs)) :
    devs = [] ∧ ∃ ms, fs.zipOracle c = some ms ∧ bs = pkContents cfg ms := by
  unfold read_pkzip at h
  cases hz : fs.zipOracle c with
  | none => rw [hz] at h; cases h
  | some ms =>
    rw [hz] at h
    cases h
    exact ⟨rfl, ms, rfl, rfl⟩

theorem read_pkzip_none (cfg : Cfg) (fs : SearchFS) (path : String)
    (c : List ℕ) (devs : List WalkEvent)
    (h : read_pkzip cfg fs path c = (none, devs)) :
    devs = [WalkEvent.diag path] ∧ fs.zipOracle c = none := by
  unfold read_pkzip at h
  cases hz : fs.zipOracle c with
  | none => rw [hz] at h; cases h; exact ⟨rfl, rfl⟩
  | some ms => rw [hz] at h; cases h

theorem unitsOf_append (a b : List WalkEvent) :
    unitsOf (a ++ b) = unitsOf a ++ unitsOf b :=
  List.filterMap_append a b _

theorem unitsOf_searchcontents (cfg : Cfg) (path : String)
    (bs : List (List ℕ)) : unitsOf (searchcontents cfg path bs) = [] := by
  simp only [searchcontents, unitsOf]
  split <;> rfl

/-! ### Basic unfolding lemmas for the walker -/

theorem searchdir_succ (cfg : Cfg) (fs : SearchFS) (f : ℕ) (v : Finset ℕ)
    (path : String) (i : ℕ) :
    searchdir cfg fs (f + 1) v path i =
      if i ∈ v then some (v, []) else
      match fs.kind i with
      | NodeKind.dir entries => goChildren cfg fs f path i (some (insert i v, [])) entries
      | NodeKind.reg c =>
        if cfg.max_size < c.length then some (insert i v, [])
        else if isZip c then
          match read_pkzip cfg fs path c with
          | (some bs, evs) =>
            if bs = [] then some (insert i v, evs)
            else some (insert i v, evs ++ WalkEvent.unit path i bs :: searchcontents cfg path bs)
          | (none, evs) => some (insert i v, evs)
        else some (insert i v, WalkEvent.unit path i [c] :: searchcontents cfg path [c])
      | NodeKind.other => some (insert i v, []) := rfl

theorem searchdir_visited (cfg : Cfg) (fs : SearchFS) (f : ℕ) (v : Finset ℕ)
    (path : String) (i : ℕ) (h : i ∈ v) :
    searchdir cfg fs (f + 1) v path i = some (v, []) := by
  rw [searchdir_succ, if_pos h]

theorem goChildren_nil (cfg : Cfg) (fs : SearchFS) (f : ℕ) (path : String)
    (i : ℕ) (st : Option (Finset ℕ × List WalkEvent)) :
    goChildren cfg fs f path i st [] = st := rfl

theorem goChildren_cons (cfg : Cfg) (fs : SearchFS) (f : ℕ) (path : String)
    (i : ℕ) (v : Finset ℕ) (evs : List WalkEvent) (s : String)
    (rest : List String) :
    goChildren cfg fs f path i (some (v, evs)) (s :: rest) =
      goChildren cfg fs f path i
        ((searchdir cfg fs f v (path ++ "/" ++ s) (fs.step i s)).map
          (fun q => (q.1, evs ++ q.2))) rest := rfl

theorem goChildren_none (cfg : Cfg) (fs : SearchFS) (f : ℕ) (path : String)
    (i : ℕ) (entries : List String) :
    goChildren cfg fs f path i none entries = none := by
  induction entries with
  | nil => rfl
  | cons s rest ih => exact ih

/-! ### Monotonicity of the visited set -/

theorem goChildren_mono (cfg : Cfg) (fs : SearchFS) (f : ℕ)
    (hsd : ∀ v path i v' evs,
      searchdir cfg fs f v path i = some (v', evs) → v ⊆ v') :
    ∀ (entries : List String) (path : String) (i : ℕ) (v : Finset ℕ)
      (evs : List WalkEvent) (v' : Finset ℕ) (evs' : List WalkEvent),
      goChildren cfg fs f path i (some (v, evs)) entries = some (v', evs') →
      v ⊆ v' := by
  intro entries
  induction entries with
  | nil =>
    intro path i v evs v' evs' h
    rw [goChildren_nil] at h
    cases h
    exact Finset.Subset.refl v
  | cons s rest ih =>
    intro path i v evs v' evs' h
    rw [goChildren_cons] at h
    cases hq : searchdir cfg fs f v (path ++ "/" ++ s) (fs.step i s) with
    | none =>
      rw [hq] at h
      simp only [Option.map_none'] at h
      rw [goChildren_none] at h
      cases h
    | some q =>
      rw [hq] at h
      simp only [Option.map_some'] at h
      exact (hsd _ _ _ _ _ hq).trans (ih _ _ _ _ _ _ h)

theorem searchdir_mono (cfg : Cfg) (fs : SearchFS) :
    ∀ (f : ℕ) (v : Finset ℕ) (path : String) (i : ℕ) (v' : Finset ℕ)
      (evs : List WalkEvent),
      searchdir cfg fs f v path i = some (v', evs) → v ⊆ v' := by
  intro f
  induction f with
  | zero =>
    intro v path i v' evs h
    cases h
  | succ f ih =>
    intro v path i v' evs h
    rw [searchdir_succ] at h
    by_cases hv : i ∈ v
    · rw [if_pos hv] at h
      cases h
      exact Finset.Subset.refl v
    · rw [if_neg hv] at h
      have hins : v ⊆ insert i v := Finset.subset_insert i v
      split at h
      next entries heq =>
        exact hins.trans (goChildren_mono cfg fs f ih entries _ _ _ _ _ _ h)
      next c heq =>
        split at h
        · cases h; exact hins
        · split at h
          · split at h
            · split at h
              · cases h; exact hins
              · cases h; exact hins
            · cases h; exact hins
          · cases h; exact hins
      next heq =>
        cases h
        exact hins

theorem searchdir_self_mem (cfg : Cfg) (fs : SearchFS) (f : ℕ) (v : Finset ℕ)
    (path : String) (i : ℕ) (v' : Finset ℕ) (evs : List WalkEvent)
    (h : searchdir cfg fs f v path i = some (v', evs)) : i ∈ v' := by
  cases f with
  | zero => cases h
  | succ f =>
    rw [searchdir_succ] at h
    by_cases hv : i ∈ v
    · rw [if_pos hv] at h
      cases h
      exact hv
    · rw [if_neg hv] at h
      have hins : i ∈ insert i v := Finset.mem_insert_self i v
      split at h
      next entries heq =>
        exact goChildren_mono cfg fs f (searchdir_mono cfg fs f) entries _ _ _ _ _ _ h hins
      next c heq =>
        split at h
        · cases h; exact hins
        · split at h
          · split at h
            · split at h
              · cases h; exact hins
              · cases h; exact hins
            · cases h; exact hins
          · cases h; exact hins
      next heq =>
        cases h
        exact hins

/-! ### Accumulated events are a prefix: transporting the fold's initial state -/

theorem goChildren_init (cfg : Cfg) (fs : SearchFS) (f : ℕ) (path : String)
    (i : ℕ) :
    ∀ (entries : List String) (v : Finset ℕ) (evs : List WalkEvent),
      goChildren cfg fs f path i (some (v, evs)) entries =
        Option.map (fun p => (p.1, evs ++ p.2))
          (goChildren cfg fs f path i (some (v, [])) entries) := by
  intro entries
  induction entries with
  | nil =>
    intro v evs
    rw [goChildren_nil, goChildren_nil]
    simp
  | cons s rest ih =>
    intro v evs
    rw [goChildren_cons, goChildren_cons]
    cases hq : searchdir cfg fs f v (path ++ "/" ++ s) (fs.step i s) with
    | none =>
      simp only [Option.map_none']
      rw [goChildren_none]
      rfl
    | some q =>
      simp only [Option.map_some', List.nil_append]
      rw [ih q.1 (evs ++ q.2), ih q.1 q.2]
      cases goChildren cfg fs f path i (some (q.1, [])) rest with
      | none => rfl
      | some r => simp

/-! ### Units: emitted at most once, only for fresh inodes -/

theorem goChildren_units (cfg : Cfg) (fs : SearchFS) (f : ℕ)
    (hsd : ∀ v path i v' evs, searchdir cfg fs f v path i = some (v', evs) →
      (unitsOf evs).Nodup ∧ ∀ j ∈ unitsOf evs, j ∉ v ∧ j ∈ v') :
    ∀ (entries : List String) (path : String) (i : ℕ) (v v' : Finset ℕ)
      (evs' : List WalkEvent),
      goChildren cfg fs f path i (some (v, [])) entries = some (v', evs') →
      (unitsOf evs').Nodup ∧ ∀ j ∈ unitsOf evs', j ∉ v ∧ j ∈ v' := by
  intro entries
  induction entries with
  | nil =>
    intro path i v v' evs' h
    rw [goChildren_nil] at h
    cases h
    exact ⟨List.nodup_nil, by intro j hj; cases hj⟩
  | cons s rest ih =>
    intro path i v v' evs' h
    rw [goChildren_cons] at h
    cases hq : searchdir cfg fs f v (path ++ "/" ++ s) (fs.step i s) with
    | none =>
      rw [hq] at h
      simp only [Option.map_none'] at h
      rw [goChildren_none] at h
      cases h
    | some q =>
      rw [hq] at h
      simp only [Option.map_some'] at h
      rw [goChildren_init] at h
      cases hr : goChildren cfg fs f path i (some (q.1, [])) rest with
      | none => rw [hr] at h; cases h
      | some r =>
        rw [hr] at h
        simp only [Option.map_some'] at h
        cases h
        have h1 := hsd v (path ++ "/" ++ s) (fs.step i s) q.1 q.2 hq
        have h2 := ih path i q.1 r.1 r.2 hr
        have hsub : v ⊆ q.1 := searchdir_mono cfg fs f v _ _ _ _ hq
        have hsub2 : q.1 ⊆ r.1 :=
          goChildren_mono cfg fs f (searchdir_mono cfg fs f) rest path i q.1 [] r.1 r.2 hr
        rw [unitsOf_append]
        constructor
        · refine List.Nodup.append h1.1 h2.1 ?_
          intro j hj1 hj2
          exact (h2.2 j hj2).1 ((h1.2 j hj1).2)
        · intro j hj
          rcases List.mem_append.mp hj with hj1 | hj2
          · exact ⟨(h1.2 j hj1).1, hsub2 ((h1.2 j hj1).2)⟩
          · exact ⟨fun hjv => (h2.2 j hj2).1 (hsub hjv), (h2.2 j hj2).2⟩

theorem searchdir_units (cfg : Cfg) (fs : SearchFS) :
    ∀ (f : ℕ) (v : Finset ℕ) (path : String) (i : ℕ) (v' : Finset ℕ)
      (evs : List WalkEvent),
      searchdir cfg fs f v path i = some (v', evs) →
      (unitsOf evs).Nodup ∧ ∀ j ∈ unitsOf evs, j ∉ v ∧ j ∈ v' := by
  intro f
  induction f with
  | zero =>
    intro v path i v' evs h
    cases h
  | succ f ih =>
    intro v path i v' evs h
    rw [searchdir_succ] at h
    by_cases hv : i ∈ v
    · rw [if_pos hv] at h
      cases h
      exact ⟨List.nodup_nil, by intro j hj; cases hj⟩
    · rw [if_neg hv] at h
      split at h
      next entries heq =>
        have := goChildren_units cfg fs f ih entries path i (insert i v) v' evs h
        refine ⟨this.1, fun j hj => ⟨?_, (this.2 j hj).2⟩⟩
        intro hjv
        exact (this.2 j hj).1 (Finset.mem_insert_of_mem hjv)
      next c heq =>
        split at h
        · cases h
          exact ⟨List.nodup_nil, by intro j hj; cases hj⟩
        · split at h
          · split at h
            next bs devs hrp =>
              obtain ⟨hdevs, ms, hms, hbs⟩ := read_pkzip_some cfg fs path c bs devs hrp
              subst hdevs
              split at h
              · cases h
                exact ⟨List.nodup_nil, by intro j hj; cases hj⟩
              · cases h
                have hu : unitsOf ([] ++ WalkEvent.unit path i bs ::
                    searchcontents cfg path bs) = [i] := by
                  rw [List.nil_append]
                  show i :: unitsOf (searchcontents cfg path bs) = [i]
                  rw [unitsOf_searchcontents]
                rw [hu]
                exact ⟨List.nodup_singleton i, by
                  intro j hj
                  rcases List.mem_singleton.mp hj with rfl
                  exact ⟨hv, Finset.mem_insert_self j v⟩⟩
            next devs hrp =>
              obtain ⟨hdevs, _⟩ := read_pkzip_none cfg fs path c devs hrp
              subst hdevs
              cases h
              exact ⟨List.nodup_nil, by intro j hj; cases hj⟩
          · cases h
            have hu : unitsOf (WalkEvent.unit path i [c] ::
                searchcontents cfg path [c]) = [i] := by
              show i :: unitsOf (searchcontents cfg path [c]) = [i]
              rw [unitsOf_searchcontents]
            rw [hu]
            exact ⟨List.nodup_singleton i, by
              intro j hj
              rcases List.mem_singleton.mp hj with rfl
              exact ⟨hv, Finset.mem_insert_self j v⟩⟩
      next heq =>
        cases h
        exact ⟨List.nodup_nil, by intro j hj; cases hj⟩


/-! ### Sufficient fuel: more fuel than unvisited inodes never runs out -/

theorem goChildren_visits (cfg : Cfg) (fs : SearchFS) (f : ℕ) :
    ∀ (entries : List String) (path : String) (i : ℕ) (v : Finset ℕ)
      (evs : List WalkEvent) (v' : Finset ℕ) (evs' : List WalkEvent),
      goChildren cfg fs f path i (some (v, evs)) entries = some (v', evs') →
      ∀ s ∈ entries, fs.step i s ∈ v' := by
  intro entries
  induction entries with
  | nil =>
    intro path i v evs v' evs' h s hs
    cases hs
  | cons s0 rest ih =>
    intro path i v evs v' evs' h s hs
    rw [goChildren_cons] at h
    cases hq : searchdir cfg fs f v (path ++ "/" ++ s0) (fs.step i s0) with
    | none =>
      rw [hq] at h
      simp only [Option.map_none'] at h
      rw [goChildren_none] at h
      cases h
    | some q =>
      rw [hq] at h
      simp only [Option.map_some'] at h
      rcases List.mem_cons.mp hs with rfl | hs'
      · have h1 : fs.step i s ∈ q.1 := searchdir_self_mem cfg fs f v _ _ q.1 q.2 hq
        have h2 : q.1 ⊆ v' :=
          goChildren_mono cfg fs f (searchdir_mono cfg fs f) rest path i q.1
            (evs ++ q.2) v' evs' h
        exact h2 h1
      · exact ih path i q.1 (evs ++ q.2) v' evs' h s hs'

theorem goChildren_fuel (cfg : Cfg) (fs : SearchFS) (f : ℕ)
    (hstep : ∀ j s, fs.step j s < fs.n)
    (hsd : ∀ (v : Finset ℕ) (path : String) (i : ℕ), i < fs.n →
      (Finset.range fs.n \ v).card < f →
      ∃ r, searchdir cfg fs f v path i = some r) :
    ∀ (entries : List String) (path : String) (i : ℕ) (v : Finset ℕ)
      (evs : List WalkEvent),
      (Finset.range fs.n \ v).card < f →
      ∃ r, goChildren cfg fs f path i (some (v, evs)) entries = some r := by
  intro entries
  induction entries with
  | nil =>
    intro path i v evs hc
    exact ⟨(v, evs), rfl⟩
  | cons s rest ih =>
    intro path i v evs hc
    obtain ⟨q, hq⟩ := hsd v (path ++ "/" ++ s) (fs.step i s) (hstep i s) hc
    have hsub : v ⊆ q.1 := searchdir_mono cfg fs f v _ _ q.1 q.2 hq
    have hc' : (Finset.range fs.n \ q.1).card < f :=
      lt_of_le_of_lt (Finset.card_le_card (Finset.sdiff_subset_sdiff
        (Finset.Subset.refl _) hsub)) hc
    obtain ⟨r, hr⟩ := ih path i q.1 (evs ++ q.2) hc'
    refine ⟨r, ?_⟩
    rw [goChildren_cons, hq]
    simp only [Option.map_some']
    exact hr

theorem searchdir_fuel (cfg : Cfg) (fs : SearchFS)
    (hstep : ∀ j s, fs.step j s < fs.n) :
    ∀ (f : ℕ) (v : Finset ℕ) (path : String) (i : ℕ), i < fs.n →
      (Finset.range fs.n \ v).card < f →
      ∃ r, searchdir cfg fs f v path i = some r := by
  intro f
  induction f with
  | zero =>
    intro v path i hi hc
    exact absurd hc (Nat.not_lt_zero _)
  | succ f ih =>
    intro v path i hi hc
    by_cases hv : i ∈ v
    · exact ⟨(v, []), searchdir_visited cfg fs f v path i hv⟩
    · have hmem : i ∈ Finset.range fs.n \ v :=
        Finset.mem_sdiff.mpr ⟨Finset.mem_range.mpr hi, hv⟩
      have hcard : (Finset.range fs.n \ insert i v).card <
          (Finset.range fs.n \ v).card := by
        rw [Finset.sdiff_insert]
        rw [Finset.card_erase_of_mem hmem]
        exact Nat.pred_lt (Nat.pos_iff_ne_zero.mp (Finset.card_pos.mpr ⟨i, hmem⟩))
      have hc' : (Finset.range fs.n \ insert i v).card < f :=
        lt_of_lt_of_le hcard (Nat.lt_succ_iff.mp hc)
      rw [searchdir_succ, if_neg hv]
      cases hk : fs.kind i with
      | dir entries =>
        exact goChildren_fuel cfg fs f hstep ih entries path i (insert i v) [] hc'
      | reg c =>
        dsimp only
        split
        · exact ⟨_, rfl⟩
        · split
          · split
            · split
              · exact ⟨_, rfl⟩
              · exact ⟨_, rfl⟩
            · exact ⟨_, rfl⟩
          · exact ⟨_, rfl⟩
      | other => exact ⟨_, rfl⟩

/-! ### Closedness: children of every directory visited in a run get visited -/

theorem goChildren_closed (cfg : Cfg) (fs : SearchFS) (f : ℕ)
    (hsd : ∀ v path i v' evs, searchdir cfg fs f v path i = some (v', evs) →
      ∀ d ∈ v', d ∉ v → ∀ es, fs.kind d = NodeKind.dir es →
        ∀ s ∈ es, fs.step d s ∈ v') :
    ∀ (entries : List String) (path : String) (i : ℕ) (v v' : Finset ℕ)
      (evs' : List WalkEvent),
      goChildren cfg fs f path i (some (v, [])) entries = some (v', evs') →
      ∀ d ∈ v', d ∉ v → ∀ es, fs.kind d = NodeKind.dir es →
        ∀ s ∈ es, fs.step d s ∈ v' := by
  intro entries
  induction entries with
  | nil =>
    intro path i v v' evs' h d hd hdv es hes s hs
    rw [goChildren_nil] at h
    cases h
    exact absurd hd hdv
  | cons s0 rest ih =>
    intro path i v v' evs' h d hd hdv es hes s hs
    rw [goChildren_cons] at h
    cases hq : searchdir cfg fs f v (path ++ "/" ++ s0) (fs.step i s0) with
    | none =>
      rw [hq] at h
      simp only [Option.map_none'] at h
      rw [goChildren_none] at h
      cases h
    | some q =>
      rw [hq] at h
      simp only [Option.map_some', List.nil_append] at h
      rw [goChildren_init] at h
      cases hr : goChildren cfg fs f path i (some (q.1, [])) rest with
      | none => rw [hr] at h; cases h
      | some r =>
        rw [hr] at h
        simp only [Option.map_some'] at h
        have hv' : v' = r.1 := by cases h; rfl
        subst hv'
        have hsub : q.1 ⊆ r.1 :=
          goChildren_mono cfg fs f (searchdir_mono cfg fs f) rest path i q.1 [] r.1 r.2 hr
        by_cases hdq : d ∈ q.1
        · exact hsub (hsd v _ _ q.1 q.2 hq d hdq hdv es hes s hs)
        · exact ih path i q.1 r.1 r.2 hr d hd hdq es hes s hs

theorem searchdir_closed (cfg : Cfg) (fs : SearchFS) :
    ∀ (f : ℕ) (v : Finset ℕ) (path : String) (i : ℕ) (v' : Finset ℕ)
      (evs : List WalkEvent),
      searchdir cfg fs f v path i = some (v', evs) →
      ∀ d ∈ v', d ∉ v → ∀ es, fs.kind d = NodeKind.dir es →
        ∀ s ∈ es, fs.step d s ∈ v' := by
  intro f
  induction f with
  | zero =>
    intro v path i v' evs h
    cases h
  | succ f ih =>
    intro v path i v' evs h d hd hdv es hes s hs
    rw [searchdir_succ] at h
    by_cases hv : i ∈ v
    · rw [if_pos hv] at h
      cases h
      exact absurd hd hdv
    · rw [if_neg hv] at h
      split at h
      next entries heq =>
        by_cases hdi : d = i
        · subst hdi
          have hentries : es = entries := by
            rw [heq] at hes
            cases hes
            rfl
          have hs' : s ∈ entries := hentries ▸ hs
          exact goChildren_visits cfg fs f entries path d (insert d v) [] v' evs h s hs'
        · have hdins : d ∉ insert i v := by
            intro hmem
            rcases Finset.mem_insert.mp hmem with rfl | hmem2
            · exact hdi rfl
            · exact hdv hmem2
          exact goChildren_closed cfg fs f ih entries path i (insert i v) v' evs h
            d hd hdins es hes s hs
      next c heq =>
        have hd' : d ∈ insert i v := by
          split at h
          · cases h; exact hd
          · split at h
            · split at h
              · split at h
                · cases h; exact hd
                · cases h; exact hd
              · cases h; exact hd
            · cases h; exact hd
        rcases Finset.mem_insert.mp hd' with rfl | hmem2
        · rw [heq] at hes
          cases hes
        · exact absurd hmem2 hdv
      next heq =>
        cases h
        rcases Finset.mem_insert.mp hd with rfl | hmem2
        · rw [heq] at hes
          cases hes
        · exact absurd hmem2 hdv

/-! ### Reachability: everything newly visited is reachable from the root -/

theorem goChildren_reach (cfg : Cfg) (fs : SearchFS) (f : ℕ)
    (hsd : ∀ v path i v' evs, searchdir cfg fs f v path i = some (v', evs) →
      ∀ d ∈ v', d ∈ v ∨ Reach fs i d) :
    ∀ (entries : List String) (path : String) (i : ℕ) (v v' : Finset ℕ)
      (evs' : List WalkEvent),
      goChildren cfg fs f path i (some (v, [])) entries = some (v', evs') →
      ∀ d ∈ v', d ∈ v ∨ ∃ s ∈ entries, Reach fs (fs.step i s) d := by
  intro entries
  induction entries with
  | nil =>
    intro path i v v' evs' h d hd
    rw [goChildren_nil] at h
    cases h
    exact Or.inl hd
  | cons s0 rest ih =>
    intro path i v v' evs' h d hd
    rw [goChildren_cons] at h
    cases hq : searchdir cfg fs f v (path ++ "/" ++ s0) (fs.step i s0) with
    | none =>
      rw [hq] at h
      simp only [Option.map_none'] at h
      rw [goChildren_none] at h
      cases h
    | some q =>
      rw [hq] at h
      simp only [Option.map_some', List.nil_append] at h
      rw [goChildren_init] at h
      cases hr : goChildren cfg fs f path i (some (q.1, [])) rest with
      | none => rw [hr] at h; cases h
      | some r =>
        rw [hr] at h
        simp only [Option.map_some'] at h
        have hv' : v' = r.1 := by cases h; rfl
        subst hv'
        rcases ih path i q.1 r.1 r.2 hr d hd with hdq | ⟨s, hsmem, hreach⟩
        · rcases hsd v _ _ q.1 q.2 hq d hdq with hdv | hreach
          · exact Or.inl hdv
          · exact Or.inr ⟨s0, List.mem_cons_self s0 rest, hreach⟩
        · exact Or.inr ⟨s, List.mem_cons_of_mem s0 hsmem, hreach⟩

theorem searchdir_reach (cfg : Cfg) (fs : SearchFS) :
    ∀ (f : ℕ) (v : Finset ℕ) (path : String) (i : ℕ) (v' : Finset ℕ)
      (evs : List WalkEvent),
      searchdir cfg fs f v path i = some (v', evs) →
      ∀ d ∈ v', d ∈ v ∨ Reach fs i d := by
  intro f
  induction f with
  | zero =>
    intro v path i v' evs h
    cases h
  | succ f ih =>
    intro v path i v' evs h d hd
    rw [searchdir_succ] at h
    by_cases hv : i ∈ v
    · rw [if_pos hv] at h
      cases h
      exact Or.inl hd
    · rw [if_neg hv] at h
      split at h
      next entries heq =>
        rcases goChildren_reach cfg fs f ih entries path i (insert i v) v' evs h d hd with
          hins | ⟨s, hsmem, hreach⟩
        · rcases Finset.mem_insert.mp hins with rfl | hmem2
          · exact Or.inr (Reach.refl d)
          · exact Or.inl hmem2
        · exact Or.inr (Reach.step heq hsmem hreach)
      next c heq =>
        have hd' : d ∈ insert i v := by
          split at h
          · cases h; exact hd
          · split at h
            · split at h
              · split at h
                · cases h; exact hd
                · cases h; exact hd
              · cases h; exact hd
            · cases h; exact hd
        rcases Finset.mem_insert.mp hd' with rfl | hmem2
        · exact Or.inr (Reach.refl d)
        · exact Or.inl hmem2
      next heq =>
        cases h
        rcases Finset.mem_insert.mp hd with rfl | hmem2
        · exact Or.inr (Reach.refl d)
        · exact Or.inl hmem2

/-! ### Eligibility: units are exactly the eligible files that get visited -/

theorem goChildren_units_elig (cfg : Cfg) (fs : SearchFS) (f : ℕ)
    (hsd : ∀ v path i v' evs, searchdir cfg fs f v path i = some (v', evs) →
      ∀ j ∈ unitsOf evs, eligible cfg fs j) :
    ∀ (entries : List String) (path : String) (i : ℕ) (v v' : Finset ℕ)
      (evs' : List WalkEvent),
      goChildren cfg fs f path i (some (v, [])) entries = some (v', evs') →
      ∀ j ∈ unitsOf evs', eligible cfg fs j := by
  intro entries
  induction entries with
  | nil =>
    intro path i v v' evs' h j hj
    rw [goChildren_nil] at h
    cases h
    cases hj
  | cons s0 rest ih =>
    intro path i v v' evs' h j hj
    rw [goChildren_cons] at h
    cases hq : searchdir cfg fs f v (path ++ "/" ++ s0) (fs.step i s0) with
    | none =>
      rw [hq] at h
      simp only [Option.map_none'] at h
      rw [goChildren_none] at h
      cases h
    | some q =>
      rw [hq] at h
      simp only [Option.map_some', List.nil_append] at h
      rw [goChildren_init] at h
      cases hr : goChildren cfg fs f path i (some (q.1, [])) rest with
      | none => rw [hr] at h; cases h
      | some r =>
        rw [hr] at h
        simp only [Option.map_some'] at h
        have hevs : evs' = q.2 ++ r.2 := by cases h; rfl
        subst hevs
        rw [unitsOf_append] at hj
        rcases List.mem_append.mp hj with hj1 | hj2
        · exact hsd v _ _ q.1 q.2 hq j hj1
        · exact ih path i q.1 r.1 r.2 hr j hj2

theorem searchdir_units_elig (cfg : Cfg) (fs : SearchFS) :
    ∀ (f : ℕ) (v : Finset ℕ) (path : String) (i : ℕ) (v' : Finset ℕ)
      (evs : List WalkEvent),
      searchdir cfg fs f v path i = some (v', evs) →
      ∀ j ∈ unitsOf evs, eligible cfg fs j := by
  intro f
  induction f with
  | zero =>
    intro v path i v' evs h
    cases h
  | succ f ih =>
    intro v path i v' evs h j hj
    rw [searchdir_succ] at h
    by_cases hv : i ∈ v
    · rw [if_pos hv] at h
      cases h
      cases hj
    · rw [if_neg hv] at h
      split at h
      next entries heq =>
        exact goChildren_units_elig cfg fs f ih entries path i (insert i v) v' evs h j hj
      next c heq =>
        split at h
        next hsz =>
          cases h
          cases hj
        next hsz =>
          split at h
          next hz =>
            split at h
            next bs devs hrp =>
              obtain ⟨hdevs, ms, hms, hbs⟩ := read_pkzip_some cfg fs path c bs devs hrp
              subst hdevs
              split at h
              next hbse =>
                cases h
                cases hj
              next hbse =>
                cases h
                have hu : unitsOf ([] ++ WalkEvent.unit path i bs ::
                    searchcontents cfg path bs) = [i] := by
                  rw [List.nil_append]
                  show i :: unitsOf (searchcontents cfg path bs) = [i]
                  rw [unitsOf_searchcontents]
                rw [hu] at hj
                rcases List.mem_singleton.mp hj with rfl
                unfold eligible
                rw [heq]
                refine ⟨Nat.le_of_not_lt hsz, fun _ => ⟨ms, hms, ?_⟩⟩
                rw [← hbs]
                exact hbse
            next devs hrp =>
              obtain ⟨hdevs, _⟩ := read_pkzip_none cfg fs path c devs hrp
              subst hdevs
              cases h
              cases hj
          next hz =>
            cases h
            have hu : unitsOf (WalkEvent.unit path i [c] ::
                searchcontents cfg path [c]) = [i] := by
              show i :: unitsOf (searchcontents cfg path [c]) = [i]
              rw [unitsOf_searchcontents]
            rw [hu] at hj
            rcases List.mem_singleton.mp hj with rfl
            unfold eligible
            rw [heq]
            exact ⟨Nat.le_of_not_lt hsz, fun hzz => absurd hzz (by simpa using hz)⟩
      next heq =>
        cases h
        cases hj

theorem goChildren_complete (cfg : Cfg) (fs : SearchFS) (f : ℕ)
    (hsd : ∀ v path i v' evs, searchdir cfg fs f v path i = some (v', evs) →
      ∀ j, eligible cfg fs j → j ∈ v' → j ∉ v → j ∈ unitsOf evs) :
    ∀ (entries : List String) (path : String) (i : ℕ) (v v' : Finset ℕ)
      (evs' : List WalkEvent),
      goChildren cfg fs f path i (some (v, [])) entries = some (v', evs') →
      ∀ j, eligible cfg fs j → j ∈ v' → j ∉ v → j ∈ unitsOf evs' := by
  intro entries
  induction entries with
  | nil =>
    intro path i v v' evs' h j _ hjv' hjv
    rw [goChildren_nil] at h
    cases h
    exact absurd hjv' hjv
  | cons s0 rest ih =>
    intro path i v v' evs' h j helig hjv' hjv
    rw [goChildren_cons] at h
    cases hq : searchdir cfg fs f v (path ++ "/" ++ s0) (fs.step i s0) with
    | none =>
      rw [hq] at h
      simp only [Option.map_none'] at h
      rw [goChildren_none] at h
      cases h
    | some q =>
      rw [hq] at h
      simp only [Option.map_some', List.nil_append] at h
      rw [goChildren_init] at h
      cases hr : goChildren cfg fs f path i (some (q.1, [])) rest with
      | none => rw [hr] at h; cases h
      | some r =>
        rw [hr] at h
        simp only [Option.map_some'] at h
        have hevs : evs' = q.2 ++ r.2 := by cases h; rfl
        have hv' : v' = r.1 := by cases h; rfl
        subst hevs
        subst hv'
        rw [unitsOf_append]
        by_cases hjq : j ∈ q.1
        · exact List.mem_append_left _ (hsd v _ _ q.1 q.2 hq j helig hjq hjv)
        · exact List.mem_append_right _ (ih path i q.1 r.1 r.2 hr j helig hjv' hjq)

theorem searchdir_complete (cfg : Cfg) (fs : SearchFS) :
    ∀ (f : ℕ) (v : Finset ℕ) (path : String) (i : ℕ) (v' : Finset ℕ)
      (evs : List WalkEvent),
      searchdir cfg fs f v path i = some (v', evs) →
      ∀ j, eligible cfg fs j → j ∈ v' → j ∉ v → j ∈ unitsOf evs := by
  intro f
  induction f with
  | zero =>
    intro v path i v' evs h
    cases h
  | succ f ih =>
    intro v path i v' evs h j helig hjv' hjv
    rw [searchdir_succ] at h
    by_cases hv : i ∈ v
    · rw [if_pos hv] at h
      cases h
      exact absurd hjv' hjv
    · rw [if_neg hv] at h
      split at h
      next entries heq =>
        by_cases hji : j = i
        · subst hji
          unfold eligible at helig
          rw [heq] at helig
          cases helig
        · have hjins : j ∉ insert i v := by
            intro hmem
            rcases Finset.mem_insert.mp hmem with rfl | hmem2
            · exact hji rfl
            · exact hjv hmem2
          exact goChildren_complete cfg fs f ih entries path i (insert i v) v' evs h
            j helig hjv' hjins
      next c heq =>
        split at h
        next hsz =>
          cases h
          rcases Finset.mem_insert.mp hjv' with rfl | hmem2
          · unfold eligible at helig
            rw [heq] at helig
            exact absurd hsz (Nat.not_lt_of_le helig.1)
          · exact absurd hmem2 hjv
        next hsz =>
          split at h
          next hz =>
            split at h
            next bs devs hrp =>
              obtain ⟨hdevs, ms, hms, hbs⟩ := read_pkzip_some cfg fs path c bs devs hrp
              subst hdevs
              split at h
              next hbse =>
                cases h
                rcases Finset.mem_insert.mp hjv' with rfl | hmem2
                · unfold eligible at helig
                  rw [heq] at helig
                  obtain ⟨ms', hms', hne⟩ := helig.2 hz
                  rw [hms] at hms'
                  cases hms'
                  rw [← hbs] at hne
                  exact absurd hbse hne
                · exact absurd hmem2 hjv
              next hbse =>
                cases h
                rcases Finset.mem_insert.mp hjv' with rfl | hmem2
                · have hu : unitsOf ([] ++ WalkEvent.unit path j bs ::
                      searchcontents cfg path bs) = [j] := by
                    rw [List.nil_append]
                    show j :: unitsOf (searchcontents cfg path bs) = [j]
                    rw [unitsOf_searchcontents]
                  rw [hu]
                  exact List.mem_singleton.mpr rfl
                · exact absurd hmem2 hjv
            next devs hrp =>
              obtain ⟨hdevs, hzo⟩ := read_pkzip_none cfg fs path c devs hrp
              subst hdevs
              cases h
              rcases Finset.mem_insert.mp hjv' with rfl | hmem2
              · unfold eligible at helig
                rw [heq] at helig
                obtain ⟨ms', hms', _⟩ := helig.2 hz
                rw [hzo] at hms'
                cases hms'
              · exact absurd hmem2 hjv
          next hz =>
            cases h
            rcases Finset.mem_insert.mp hjv' with rfl | hmem2
            · have hu : unitsOf (WalkEvent.unit path j [c] ::
                  searchcontents cfg path [c]) = [j] := by
                show j :: unitsOf (searchcontents cfg path [c]) = [j]
                rw [unitsOf_searchcontents]
              rw [hu]
              exact List.mem_singleton.mpr rfl
            · exact absurd hmem2 hjv
      next heq =>
        cases h
        rcases Finset.mem_insert.mp hjv' with rfl | hmem2
        · unfold eligible at helig
          rw [heq] at helig
          cases helig
        · exact absurd hmem2 hjv

/-! ### Report lines always carry the unit's path label -/

theorem searchcontents_report (cfg : Cfg) (path : String) (bs : List (List ℕ))
    (l : String) (h : WalkEvent.report l ∈ searchcontents cfg path bs) :
    l = path ++ ": " ++ toString (countLoop cfg.finditer 0 bs) := by
  simp only [searchcontents] at h
  split at h
  · rcases List.mem_singleton.mp h with h'
    cases h'
    rfl
  · cases h

theorem goChildren_reports (cfg : Cfg) (fs : SearchFS) (f : ℕ)
    (hsd : ∀ v path i v' evs, searchdir cfg fs f v path i = some (v', evs) →
      ∀ l, WalkEvent.report l ∈ evs → ∃ lab j bs, WalkEvent.unit lab j bs ∈ evs ∧
        l = lab ++ ": " ++ toString (countLoop cfg.finditer 0 bs)) :
    ∀ (entries : List String) (path : String) (i : ℕ) (v v' : Finset ℕ)
      (evs' : List WalkEvent),
      goChildren cfg fs f path i (some (v, [])) entries = some (v', evs') →
      ∀ l, WalkEvent.report l ∈ evs' → ∃ lab j bs, WalkEvent.unit lab j bs ∈ evs' ∧
        l = lab ++ ": " ++ toString (countLoop cfg.finditer 0 bs) := by
  intro entries
  induction entries with
  | nil =>
    intro path i v v' evs' h l hl
    rw [goChildren_nil] at h
    cases h
    cases hl
  | cons s0 rest ih =>
    intro path i v v' evs' h l hl
    rw [goChildren_cons] at h
    cases hq : searchdir cfg fs f v (path ++ "/" ++ s0) (fs.step i s0) with
    | none =>
      rw [hq] at h
      simp only [Option.map_none'] at h
      rw [goChildren_none] at h
      cases h
    | some q =>
      rw [hq] at h
      simp only [Option.map_some', List.nil_append] at h
      rw [goChildren_init] at h
      cases hr : goChildren cfg fs f path i (some (q.1, [])) rest with
      | none => rw [hr] at h; cases h
      | some r =>
        rw [hr] at h
        simp only [Option.map_some'] at h
        have hevs : evs' = q.2 ++ r.2 := by cases h; rfl
        subst hevs
        rcases List.mem_append.mp hl with hl1 | hl2
        · obtain ⟨lab, j, bs, hmem, heq'⟩ := hsd v _ _ q.1 q.2 hq l hl1
          exact ⟨lab, j, bs, List.mem_append_left _ hmem, heq'⟩
        · obtain ⟨lab, j, bs, hmem, heq'⟩ := ih path i q.1 r.1 r.2 hr l hl2
          exact ⟨lab, j, bs, List.mem_append_right _ hmem, heq'⟩

theorem searchdir_reports (cfg : Cfg) (fs : SearchFS) :
    ∀ (f : ℕ) (v : Finset ℕ) (path : String) (i : ℕ) (v' : Finset ℕ)
      (evs : List WalkEvent),
      searchdir cfg fs f v path i = some (v', evs) →
      ∀ l, WalkEvent.report l ∈ evs → ∃ lab j bs, WalkEvent.unit lab j bs ∈ evs ∧
        l = lab ++ ": " ++ toString (countLoop cfg.finditer 0 bs) := by
  intro f
  induction f with
  | zero =>
    intro v path i v' evs h
    cases h
  | succ f ih =>
    intro v path i v' evs h l hl
    rw [searchdir_succ] at h
    by_cases hv : i ∈ v
    · rw [if_pos hv] at h
      cases h
      cases hl
    · rw [if_neg hv] at h
      split at h
      next entries heq =>
        exact goChildren_reports cfg fs f ih entries path i (insert i v) v' evs h l hl
      next c heq =>
        split at h
        next hsz =>
          cases h
          cases hl
        next hsz =>
          split at h
          next hz =>
            split at h
            next bs devs hrp =>
              obtain ⟨hdevs, ms, hms, hbs⟩ := read_pkzip_some cfg fs path c bs devs hrp
              subst hdevs
              split at h
              next hbse =>
                cases h
                cases hl
              next hbse =>
                cases h
                rw [List.nil_append] at hl
                rcases List.mem_cons.mp hl with h' | h'
                · cases h'
                · refine ⟨path, i, bs, ?_, searchcontents_report cfg path bs l h'⟩
                  rw [List.nil_append]
                  exact List.mem_cons_self _ _
            next devs hrp =>
              obtain ⟨hdevs, _⟩ := read_pkzip_none cfg fs path c devs hrp
              subst hdevs
              cases h
              rcases List.mem_singleton.mp hl with h'
              cases h'
          next hz =>
            cases h
            rcases List.mem_cons.mp hl with h' | h'
            · cases h'
            · exact ⟨path, i, [c], List.mem_cons_self _ _,
                searchcontents_report cfg path [c] l h'⟩
      next heq =>
        cases h
        cases hl

/-! ### Claim theorems for the traversal engine -/

theorem countLoop_eq_sum (fd : List ℕ → List MatchSpan) :
    ∀ (bs : List (List ℕ)) (n : ℕ),
      countLoop fd n bs = n + (bs.map (fun b => (fd b).length)).sum := by
  intro bs
  induction bs with
  | nil =>
    intro n
    simp [countLoop]
  | cons c cs ih =>
    intro n
    rw [show countLoop fd n (c :: cs) = countLoop fd (n + (fd c).length) cs from rfl]
    rw [ih]
    simp [Nat.add_assoc]

/-- Claim C6: for every unit, the total match count is the sum over its blobs
of the number of non-overlapping pattern matches in that blob (the blobs are
matched independently — `finditer` is applied per blob, never to a
concatenation), and the `"<path>: <n>"` report line is printed if and only if
that total is at least `min_matches`. -/
theorem C6_count_sum_and_threshold (cfg : Cfg) (path : String)
    (blobs : List (List ℕ)) :
    countLoop cfg.finditer 0 blobs =
      (blobs.map (fun b => (cfg.finditer b).length)).sum ∧
    (cfg.min_matches ≤ (blobs.map (fun b => (cfg.finditer b).length)).sum →
      searchcontents cfg path blobs =
        [WalkEvent.report (path ++ ": " ++
          toString ((blobs.map (fun b => (cfg.finditer b).length)).sum))]) ∧
    (¬ cfg.min_matches ≤ (blobs.map (fun b => (cfg.finditer b).length)).sum →
      searchcontents cfg path blobs = []) := by
  have hsum : countLoop cfg.finditer 0 blobs =
      (blobs.map (fun b => (cfg.finditer b).length)).sum := by
    rw [countLoop_eq_sum]
    exact Nat.zero_add _
  refine ⟨hsum, ?_, ?_⟩
  · intro hle
    simp only [searchcontents, hsum]
    rw [if_pos hle]
  · intro hlt
    simp only [searchcontents, hsum]
    rw [if_neg hlt]

def cfgC6 : Cfg where
  max_size := 1000
  min_matches := 1
  finditer := litFind [100, 111, 103]

/-- Witness for C6, the spec's own end-to-end example: an archive unit with
one member containing "dog" twice and another containing "dog" once is
reported as `"<path>: 3"`. -/
theorem C6_witness :
    searchcontents cfgC6 "p"
      [[100, 111, 103, 32, 100, 111, 103], [100, 111, 103]] =
      [WalkEvent.report "p: 3"] := by
  have h := (C6_count_sum_and_threshold cfgC6 "p"
    [[100, 111, 103, 32, 100, 111, 103], [100, 111, 103]]).2.1 (by decide)
  rw [h]
  decide

/-- Claim C7 (confirmed): a regular file whose size exceeds `max_size` is
skipped silently — the walker emits no unit, no report and no diagnostic,
only marks the path visited — and a directory fold simply continues with the
remaining entries afterwards. -/
theorem C7_oversized_silent (cfg : Cfg) (fs : SearchFS) (f : ℕ)
    (v : Finset ℕ) (path : String) (i : ℕ) (c : List ℕ)
    (hk : fs.kind i = NodeKind.reg c) (hv : i ∉ v)
    (hsz : cfg.max_size < c.length) :
    searchdir cfg fs (f + 1) v path i = some (insert i v, []) ∧
    (∀ (p : String) (d : ℕ) (s : String) (rest : List String)
       (evs : List WalkEvent), fs.step d s = i →
       goChildren cfg fs (f + 1) p d (some (v, evs)) (s :: rest) =
         goChildren cfg fs (f + 1) p d (some (insert i v, evs)) rest) := by
  have h1 : searchdir cfg fs (f + 1) v path i = some (insert i v, []) := by
    rw [searchdir_succ, if_neg hv, hk]
    exact if_pos hsz
  refine ⟨h1, ?_⟩
  intro p d s rest evs hstep
  rw [goChildren_cons, hstep]
  have h1' : searchdir cfg fs (f + 1) v (p ++ "/" ++ s) i = some (insert i v, []) := by
    rw [searchdir_succ, if_neg hv, hk]
    exact if_pos hsz
  rw [h1']
  simp only [Option.map_some', List.append_nil]

def fsC7 : SearchFS where
  n := 2
  kind := fun i => if i = 0 then NodeKind.dir ["big"] else NodeKind.reg [97, 97, 97]
  step := fun i s => if i = 0 ∧ s = "big" then 1 else 0
  zipOracle := fun _ => none

def cfgC7 : Cfg where
  max_size := 2
  min_matches := 1
  finditer := litFind [97]

/-- Witness for C7: a 3-byte file under a 2-byte cap is skipped with no
events, and the enclosing directory walk yields no output at all. -/
theorem C7_witness :
    searchdir cfgC7 fsC7 1 ∅ "r/big" 1 = some (insert 1 ∅, []) :=
  (C7_oversized_silent cfgC7 fsC7 0 ∅ "r/big" 1 [97, 97, 97]
    (by decide) (by decide) (by decide)).1

/-- Claim C1, amended: when a file starts with the zip signature and archive
expansion fails, `read_pkzip` prints a diagnostic naming the path and returns
`False`; `_searchdir`'s `if content:` test then skips the unit entirely — the
raw bytes are NOT searched, so no fallback report can appear no matter how
many matches the raw bytes contain. -/
theorem C1_zip_failure_skips_unit (cfg : Cfg) (fs : SearchFS) (f : ℕ)
    (v : Finset ℕ) (path : String) (i : ℕ) (c : List ℕ)
    (hk : fs.kind i = NodeKind.reg c) (hv : i ∉ v)
    (hsz : ¬ cfg.max_size < c.length) (hz : isZip c = true)
    (ho : fs.zipOracle c = none) :
    searchdir cfg fs (f + 1) v path i = some (insert i v, [WalkEvent.diag path]) := by
  rw [searchdir_succ, if_neg hv, hk]
  have hrp : read_pkzip cfg fs path c = (none, [WalkEvent.diag path]) := by
    unfold read_pkzip
    rw [ho]
  dsimp only
  rw [if_neg hsz, if_pos hz, hrp]

def fsC1 : SearchFS where
  n := 1
  kind := fun _ => NodeKind.reg [80, 75, 3, 4, 97, 97, 97]
  step := fun _ _ => 0
  zipOracle := fun _ => none

def cfgC1 : Cfg where
  max_size := 100
  min_matches := 1
  finditer := litFind [97]

/-- Counterexample to C1 as stated: a file whose content is the zip signature
followed by `"aaa"`, whose archive expansion fails, and whose raw bytes
contain 3 matches of the pattern (3 ≥ min_matches = 1).  The claim predicts a
diagnostic AND a fallback report of the raw bytes; the program emits only the
diagnostic — no unit and no report line appear. -/
theorem C1_counterexample :
    isZip [80, 75, 3, 4, 97, 97, 97] = true ∧
    fsC1.zipOracle [80, 75, 3, 4, 97, 97, 97] = none ∧
    cfgC1.min_matches ≤ (cfgC1.finditer [80, 75, 3, 4, 97, 97, 97]).length ∧
    searchdir cfgC1 fsC1 2 ∅ "p" 0 = some ({0}, [WalkEvent.diag "p"]) ∧
    unitsOf [WalkEvent.diag "p"] = [] := by
  decide

/-- Witness for the amended C1. -/
theorem C1_witness :
    searchdir cfgC1 fsC1 5 ∅ "q" 0 = some (insert 0 ∅, [WalkEvent.diag "q"]) :=
  C1_zip_failure_skips_unit cfgC1 fsC1 4 ∅ "q" 0 [80, 75, 3, 4, 97, 97, 97]
    (by decide) (by decide) (by decide) (by decide) (by decide)

/-- Claim C2, amended: every report line the walker prints has the form
`"<label>: <count>"` where `<label>` is the file path of the unit the line
belongs to — `read_pkzip` returns only member bytes, so member names never
reach the label. -/
theorem C2_report_label_is_path (cfg : Cfg) (fs : SearchFS) (f : ℕ)
    (v : Finset ℕ) (path : String) (i : ℕ) (v' : Finset ℕ)
    (evs : List WalkEvent)
    (h : searchdir cfg fs f v path i = some (v', evs)) (l : String)
    (hl : WalkEvent.report l ∈ evs) :
    ∃ lab j bs, WalkEvent.unit lab j bs ∈ evs ∧
      l = lab ++ ": " ++ toString (countLoop cfg.finditer 0 bs) :=
  searchdir_reports cfg fs f v path i v' evs h l hl

def fsC2 : SearchFS where
  n := 1
  kind := fun _ => NodeKind.reg [80, 75, 3, 4]
  step := fun _ _ => 0
  zipOracle := fun c =>
    if c = [80, 75, 3, 4] then
      some [("mem1", [100, 111, 103, 32, 100, 111, 103]), ("mem2", [100, 111, 103])]
    else none

def cfgC2 : Cfg where
  max_size := 100
  min_matches := 1
  finditer := litFind [100, 111, 103]

/-- Counterexample to C2 as stated: an archive with members named `"mem1"`
(two matches) and `"mem2"` (one match) is reported with the single line
`"p: 3"` — the label is the file path alone and the count sums over members;
no `"<path>:<member-name>"` label exists (the line does not even contain the
byte `m` of the member names). -/
theorem C2_counterexample :
    searchdir cfgC2 fsC2 2 ∅ "p" 0 = some ({0},
      [WalkEvent.unit "p" 0 [[100, 111, 103, 32, 100, 111, 103], [100, 111, 103]],
       WalkEvent.report "p: 3"]) ∧
    (∃ ms, fsC2.zipOracle [80, 75, 3, 4] = some ms ∧
      ms.map Prod.fst = ["mem1", "mem2"]) ∧
    'm' ∉ "p: 3".data ∧ "p: 3" ≠ "p:mem1: 2" ∧ "p: 3" ≠ "p:mem2: 1" := by
  refine ⟨by decide, ⟨_, rfl, by decide⟩, by decide, by decide, by decide⟩

/-- Witness for the amended C2, on the archive run of `fsC2`. -/
theorem C2_witness :
    ∃ lab j bs,
      WalkEvent.unit lab j bs ∈
        [WalkEvent.unit "p" 0 [[100, 111, 103, 32, 100, 111, 103], [100, 111, 103]],
         WalkEvent.report "p: 3"] ∧
      "p: 3" = lab ++ ": " ++ toString (countLoop cfgC2.finditer 0 bs) :=
  C2_report_label_is_path cfgC2 fsC2 2 ∅ "p" 0 {0}
    [WalkEvent.unit "p" 0 [[100, 111, 103, 32, 100, 111, 103], [100, 111, 103]],
     WalkEvent.report "p: 3"]
    (by decide) "p: 3" (by decide)

/-- Claim C5, amended: on every finite filesystem graph — symlink cycles and
multiple link paths to one inode included — the traversal with fuel `n + 1`
terminates (returns `some`), a canonical path already in the visited set is
never reprocessed, the emitted units carry pairwise-distinct canonical
inodes, and the units are exactly the reachable *eligible* files: real files
that are within the size cap and, when zip-classified, expand to a nonempty
member list.  (Oversized files and failing or empty archives are visited but
yield no unit, which is where the claim as stated fails.) -/
theorem C5_traversal_terminates_units_once (cfg : Cfg) (fs : SearchFS)
    (root : ℕ) (path : String) (hroot : root < fs.n)
    (hstep : ∀ j s, fs.step j s < fs.n) :
    ∃ v' evs, searchdir cfg fs (fs.n + 1) ∅ path root = some (v', evs) ∧
      (unitsOf evs).Nodup ∧
      (∀ j, j ∈ unitsOf evs ↔ (Reach fs root j ∧ eligible cfg fs j)) ∧
      (∀ (f : ℕ) (w : Finset ℕ) (p : String) (i : ℕ), i ∈ w →
        searchdir cfg fs (f + 1) w p i = some (w, [])) := by
  have hcard : (Finset.range fs.n \ ∅).card < fs.n + 1 := by
    rw [Finset.sdiff_empty, Finset.card_range]
    exact Nat.lt_succ_self _
  obtain ⟨⟨v', evs⟩, hr⟩ :=
    searchdir_fuel cfg fs hstep (fs.n + 1) ∅ path root hroot hcard
  have hunits := searchdir_units cfg fs (fs.n + 1) ∅ path root v' evs hr
  refine ⟨v', evs, hr, hunits.1, ?_, ?_⟩
  · intro j
    constructor
    · intro hj
      refine ⟨?_, searchdir_units_elig cfg fs (fs.n + 1) ∅ path root v' evs hr j hj⟩
      have hjv' : j ∈ v' := (hunits.2 j hj).2
      rcases searchdir_reach cfg fs (fs.n + 1) ∅ path root v' evs hr j hjv' with
        hmem | hreach
      · cases hmem
      · exact hreach
    · rintro ⟨hreach, helig⟩
      have hroot' : root ∈ v' :=
        searchdir_self_mem cfg fs (fs.n + 1) ∅ path root v' evs hr
      have hprop : ∀ a b, Reach fs a b → a ∈ v' → b ∈ v' := by
        intro a b hab
        induction hab with
        | refl i => exact fun h => h
        | step hk hs _ ih =>
          intro hi
          exact ih (searchdir_closed cfg fs (fs.n + 1) ∅ path root v' evs hr
            _ hi (Finset.not_mem_empty _) _ hk _ hs)
      have hv' : j ∈ v' := hprop root j hreach hroot'
      exact searchdir_complete cfg fs (fs.n + 1) ∅ path root v' evs hr j helig
        hv' (by intro hmem; cases hmem)
  · intro f w p i hi
    exact searchdir_visited cfg fs f w p i hi

def fsC5 : SearchFS where
  n := 2
  kind := fun i => if i = 0 then NodeKind.dir ["big"] else NodeKind.reg [97, 97, 97]
  step := fun i s => if i = 0 ∧ s = "big" then 1 else 0
  zipOracle := fun _ => none

def cfgC5 : Cfg where
  max_size := 1
  min_matches := 1
  finditer := litFind [97]

/-- Counterexample to C5 as stated: a tree with one real (regular) file whose
size exceeds the cap.  Traversal terminates and visits the file's canonical
path, but the run emits NO unit at all, contradicting "each real file yields
exactly one unit" (the spec's own size-exclusion rule, claim C7, forces
this). -/
theorem C5_counterexample :
    fsC5.kind 0 = NodeKind.dir ["big"] ∧ fsC5.step 0 "big" = 1 ∧
    fsC5.kind 1 = NodeKind.reg [97, 97, 97] ∧
    searchdir cfgC5 fsC5 3 ∅ "r" 0 = some ({1, 0}, []) := by
  decide

def fsC5w : SearchFS where
  n := 3
  kind := fun i =>
    if i = 0 then NodeKind.dir ["a", "b", "loop"]
    else if i = 1 then NodeKind.dir ["f"]
    else if i = 2 then NodeKind.reg [100, 111, 103]
    else NodeKind.other
  step := fun i s =>
    if i = 0 ∧ s = "a" then 1
    else if i = 0 ∧ s = "b" then 2
    else if i = 0 ∧ s = "loop" then 0
    else if i = 1 ∧ s = "f" then 2
    else 0
  zipOracle := fun _ => none

def cfgC5w : Cfg where
  max_size := 100
  min_matches := 1
  finditer := litFind [100, 111, 103]

/-- Witness for the amended C5, on a graph with a symlink cycle
(`"loop"` resolves back to the root) and two link paths (`"b"` and
`"a/f"`) to the same regular file. -/
theorem C5_witness :
    ∃ v' evs, searchdir cfgC5w fsC5w (fsC5w.n + 1) ∅ "r" 0 = some (v', evs) ∧
      (unitsOf evs).Nodup ∧
      (∀ j, j ∈ unitsOf evs ↔ (Reach fsC5w 0 j ∧ eligible cfgC5w fsC5w j)) ∧
      (∀ (f : ℕ) (w : Finset ℕ) (p : String) (i : ℕ), i ∈ w →
        searchdir cfgC5w fsC5w (f + 1) w p i = some (w, [])) :=
  C5_traversal_terminates_units_once cfgC5w fsC5w 0 "r" (by decide)
    (by
      intro j s
      show (if j = 0 ∧ s = "a" then 1
        else if j = 0 ∧ s = "b" then 2
        else if j = 0 ∧ s = "loop" then 0
        else if j = 1 ∧ s = "f" then 2
        else 0) < fsC5w.n
      split
      · decide
      · split
        · decide
        · split
          · decide
          · split
            · decide
            · decide)

/-! ### Claim theorems for the preview renderer -/

theorem mergeLoop_pair_merge (lead lag : ℕ) (m1 m2 : MatchSpan)
    (hov : m2.s < m1.e + lag) :
    buildParts lead lag [m1, m2] =
      [⟨m1.s - lead, m1.s, true⟩, ⟨m1.s, m1.e, false⟩, ⟨m1.e, m2.s, true⟩,
       ⟨m2.s, m2.e, false⟩, ⟨m2.e, m2.e + lag, true⟩] := by
  show mergeLoop lead lag (match_to_parts lead lag m1) 2 [m2] = _
  simp only [match_to_parts, mergeLoop, List.getD_cons_succ, List.getD_cons_zero]
  rw [if_pos hov]
  rfl

theorem mergeLoop_pair_sep (lead lag : ℕ) (m1 m2 : MatchSpan)
    (hov : ¬ m2.s < m1.e + lag) :
    buildParts lead lag [m1, m2] =
      match_to_parts lead lag m1 ++ match_to_parts lead lag m2 := by
  show mergeLoop lead lag (match_to_parts lead lag m1) 2 [m2] = _
  simp only [match_to_parts, mergeLoop, List.getD_cons_succ, List.getD_cons_zero]
  rw [if_neg hov]

/-- Claim C4 (confirmed): for two spans sorted by start offset, the second is
merged into the first's display block exactly when its start lies strictly
before the end of the current trailing context window `m1.e + lag`; merging
shrinks that window to end exactly at `m2.s` and appends the new match part
plus a fresh trailing window `(m2.e, m2.e + lag)`; otherwise the parts of the
second span are its own untouched lead/match/lag expansion (which the render
loop then turns into a new block at the ctx-after-ctx boundary).  The merge
condition does not involve `m1.e` itself, so spans whose matches are disjoint
(`m1.e ≤ m2.s`) still merge whenever `m2.s < m1.e + lag`. -/
theorem C4_merge_rule (lead lag : ℕ) (m1 m2 : MatchSpan) (_hle : m1.s ≤ m2.s) :
    (m2.s < m1.e + lag →
      buildParts lead lag [m1, m2] =
        [⟨m1.s - lead, m1.s, true⟩, ⟨m1.s, m1.e, false⟩, ⟨m1.e, m2.s, true⟩,
         ⟨m2.s, m2.e, false⟩, ⟨m2.e, m2.e + lag, true⟩]) ∧
    (m1.e + lag ≤ m2.s →
      buildParts lead lag [m1, m2] =
        match_to_parts lead lag m1 ++ match_to_parts lead lag m2) :=
  ⟨mergeLoop_pair_merge lead lag m1 m2,
   fun h => mergeLoop_pair_sep lead lag m1 m2 (Nat.not_lt_of_le h)⟩

/-- Witness for C4: matches `(2,4)` and `(7,9)` are disjoint; with `lag = 80`
the windows overlap and one merged block arises with the shared context
window shrunk to `(4,7)`; with `lag = 2` they stay separate. -/
theorem C4_witness :
    buildParts 2 80 [⟨2, 4⟩, ⟨7, 9⟩] =
      [⟨0, 2, true⟩, ⟨2, 4, false⟩, ⟨4, 7, true⟩, ⟨7, 9, false⟩, ⟨9, 89, true⟩] ∧
    buildParts 2 2 [⟨2, 4⟩, ⟨7, 9⟩] =
      match_to_parts 2 2 ⟨2, 4⟩ ++ match_to_parts 2 2 ⟨7, 9⟩ := by
  constructor
  · rw [(C4_merge_rule 2 80 ⟨2, 4⟩ ⟨7, 9⟩ (by decide)).1 (by decide)]
    decide
  · exact (C4_merge_rule 2 2 ⟨2, 4⟩ ⟨7, 9⟩ (by decide)).2 (by decide)

/-- Counterexample to C3 as stated: content `"<aaab>xxqqddee"` with matches
`(2,4)` (lying inside the markup tag, so its block strips to empty) and
`(10,12)` (whose block `"qqddee"` strips to itself).  The empty first block
is flushed: it prints nothing, but the flush unconditionally sets the
printed-state, so the final flush prints a `---` divider on account of it —
and `_print_block` then raises `TypeError` on the non-empty second block
(`color_prefix` is the str `''` with colorize off), so the unit's whole
preview output is that lone divider, which is not between two non-empty
rendered blocks; no block text is ever printed. -/
theorem C3_counterexample :
    pyTrim (stripTags [60, 97, 97, 97, 98, 62]) = [] ∧
    pyTrim (stripTags [113, 113, 100, 100, 101, 101]) =
      [113, 113, 100, 100, 101, 101] ∧
    print_previews 2 2
      [60, 97, 97, 97, 98, 62, 120, 120, 113, 113, 100, 100, 101, 101]
      [⟨2, 4⟩, ⟨10, 12⟩] false = PreviewResult.raised [POut.divider] := by
  decide

set_option maxHeartbeats 2000000 in
/-- Claim C3, amended: a block that is empty after markup stripping produces
no printed text itself (its early return precedes the failing
concatenation), but it does NOT leave the divider-placement state unchanged:
the flush sets the printed-state unconditionally, and the divider decision
precedes the emptiness check.  With colorize off, a block that is non-empty
after stripping then raises `TypeError` instead of printing, so when a
unit's first block strips to empty and a later one does not, the preview
output is a lone `---` divider — emitted on account of the empty block —
after which the exception aborts the preview (surfacing as `_searchdir`'s
`Failed to read` diagnostic). -/
theorem C3_empty_block_sets_state (content : List ℕ) (lead lag : ℕ)
    (m1 m2 : MatchSpan) (hle : m1.s ≤ m2.s) (hsep : m1.e + lag ≤ m2.s)
    (hb1 : print_block (pySlice content (m1.s - lead) m1.s ++
      (pySlice content m1.s m1.e ++ pySlice content m1.e (m1.e + lag))) =
      BlockOut.silent)
    (hb2 : print_block (pySlice content (m2.s - lead) m2.s ++
      (pySlice content m2.s m2.e ++ pySlice content m2.e (m2.e + lag))) =
      BlockOut.raised) :
    print_previews lead lag content [m1, m2] false =
      PreviewResult.raised [POut.divider] := by
  unfold print_previews
  rw [if_neg (by simp)]
  rw [List.Sorted.insertionSort_eq (by
    refine List.sorted_cons.mpr ⟨?_, List.sorted_singleton m2⟩
    intro b hb
    rcases List.mem_singleton.mp hb with rfl
    exact hle)]
  rw [mergeLoop_pair_sep lead lag m1 m2 (Nat.not_lt_of_le hsep)]
  simp only [match_to_parts, List.cons_append, List.nil_append]
  have hb1' : print_block ((([] ++ pySlice content (m1.s - lead) m1.s) ++
      pySlice content m1.s m1.e) ++ pySlice content m1.e (m1.e + lag)) =
      BlockOut.silent := by
    rw [List.nil_append, List.append_assoc]
    exact hb1
  have hb2' : print_block ((pySlice content (m2.s - lead) m2.s ++
      pySlice content m2.s m2.e) ++ pySlice content m2.e (m2.e + lag)) =
      BlockOut.raised := by
    rw [List.append_assoc]
    exact hb2
  have expose : renderGo content
      [⟨m1.s - lead, m1.s, true⟩, ⟨m1.s, m1.e, false⟩, ⟨m1.e, m1.e + lag, true⟩,
       ⟨m2.s - lead, m2.s, true⟩, ⟨m2.s, m2.e, false⟩, ⟨m2.e, m2.e + lag, true⟩]
      [] false false [] =
      (match print_block ((([] ++ pySlice content (m1.s - lead) m1.s) ++
          pySlice content m1.s m1.e) ++ pySlice content m1.e (m1.e + lag)) with
      | BlockOut.silent =>
        (match print_block ((pySlice content (m2.s - lead) m2.s ++
            pySlice content m2.s m2.e) ++ pySlice content m2.e (m2.e + lag)) with
        | BlockOut.silent => RenderResult.ok ([] ++ [POut.divider])
        | BlockOut.printed t =>
          RenderResult.ok (([] ++ [POut.divider]) ++ [POut.text t])
        | BlockOut.raised => RenderResult.raised ([] ++ [POut.divider]))
      | BlockOut.printed t1 =>
        (match print_block ((pySlice content (m2.s - lead) m2.s ++
            pySlice content m2.s m2.e) ++ pySlice content m2.e (m2.e + lag)) with
        | BlockOut.silent =>
          RenderResult.ok (([] ++ [POut.text t1]) ++ [POut.divider])
        | BlockOut.printed t =>
          RenderResult.ok ((([] ++ [POut.text t1]) ++ [POut.divider]) ++
            [POut.text t])
        | BlockOut.raised =>
          RenderResult.raised (([] ++ [POut.text t1]) ++ [POut.divider]))
      | BlockOut.raised => RenderResult.raised []) := rfl
  rw [expose, hb1', hb2']
  simp

/-- Witness for the amended C3, on content `"<zzzy>wwrrccss"`: the preview
prints the divider caused by the empty first block, then aborts. -/
theorem C3_witness :
    print_previews 2 2
      [60, 122, 122, 122, 121, 62, 119, 119, 114, 114, 99, 99, 115, 115]
      [⟨2, 4⟩, ⟨10, 12⟩] false = PreviewResult.raised [POut.divider] :=
  C3_empty_block_sets_state
    [60, 122, 122, 122, 121, 62, 119, 119, 114, 114, 99, 99, 115, 115]
    2 2 ⟨2, 4⟩ ⟨10, 12⟩ (by decide) (by decide) (by decide) (by decide)

theorem splitAtGt_eq : ∀ (l : List ℕ) (pq : List ℕ × List ℕ),
    splitAtGt l = some pq → l = pq.1 ++ 62 :: pq.2 := by
  intro l
  induction l with
  | nil => intro pq h; cases h
  | cons x xs ih =>
    intro pq h
    unfold splitAtGt at h
    by_cases hx : x = 62
    · rw [if_pos hx] at h
      cases h
      rw [hx]
      rfl
    · rw [if_neg hx] at h
      cases hq : splitAtGt xs with
      | none => rw [hq] at h; cases h
      | some pq' =>
        rw [hq] at h
        simp only [Option.map_some'] at h
        cases h
        have := ih pq' hq
        simp only [List.cons_append]
        rw [← this]

theorem splitAtGt_append : ∀ (p q : List ℕ), (∀ c ∈ p, c ≠ 62) →
    splitAtGt (p ++ 62 :: q) = some (p, q) := by
  intro p
  induction p with
  | nil =>
    intro q _
    simp [splitAtGt]
  | cons x xs ih =>
    intro q hp
    have hx : x ≠ 62 := hp x (List.mem_cons_self x xs)
    simp only [List.cons_append, splitAtGt, if_neg hx, List.append_eq]
    rw [ih q (fun c hc => hp c (List.mem_cons_of_mem x hc))]
    rfl

theorem splitAtGt_none : ∀ (l : List ℕ), (∀ c ∈ l, c ≠ 62) →
    splitAtGt l = none := by
  intro l
  induction l with
  | nil => intro _; rfl
  | cons x xs ih =>
    intro hl
    have hx : x ≠ 62 := hl x (List.mem_cons_self x xs)
    simp only [splitAtGt, if_neg hx]
    rw [ih (fun c hc => hl c (List.mem_cons_of_mem x hc))]
    rfl

theorem stripFromF_congr : ∀ (f g : ℕ) (l : List ℕ),
    l.length ≤ f → l.length ≤ g → stripFromF f l = stripFromF g l := by
  intro f
  induction f with
  | zero =>
    intro g l hf hg
    have : l = [] := List.length_eq_zero.mp (Nat.le_zero.mp hf)
    subst this
    cases g <;> rfl
  | succ f ih =>
    intro g l hf hg
    cases l with
    | nil => cases g <;> rfl
    | cons c rest =>
      cases g with
      | zero => exact absurd hg (by simp)
      | succ g =>
        show stripFromF (f + 1) (c :: rest) = stripFromF (g + 1) (c :: rest)
        simp only [stripFromF]
        have hrest : rest.length ≤ f := by
          simp only [List.length_cons] at hf
          omega
        have hrest' : rest.length ≤ g := by
          simp only [List.length_cons] at hg
          omega
        by_cases hc : c = 60
        · rw [if_pos hc, if_pos hc]
          cases hq : splitAtGt rest with
          | none => rfl
          | some pq =>
            dsimp only
            have hlen : pq.2.length < rest.length := by
              have hre := splitAtGt_eq rest pq hq
              rw [hre]
              simp only [List.length_append, List.length_cons]
              omega
            by_cases hone : 1 ≤ pq.1.length
            · rw [if_pos hone, if_pos hone]
              exact ih g pq.2 (by omega) (by omega)
            · rw [if_neg hone, if_neg hone]
              rw [ih g rest hrest hrest']
        · rw [if_neg hc, if_neg hc]
          rw [ih g rest hrest hrest']

theorem stripFrom_cons_tag (inner rest : List ℕ) (hne : inner ≠ [])
    (hinner : ∀ c ∈ inner, c ≠ 62) :
    stripFrom (60 :: (inner ++ 62 :: rest)) = stripFrom rest := by
  unfold stripFrom
  show stripFromF ((60 :: (inner ++ 62 :: rest)).length) (60 :: (inner ++ 62 :: rest)) = _
  have hl : (60 :: (inner ++ 62 :: rest)).length = (inner ++ 62 :: rest).length + 1 := rfl
  rw [hl]
  have hone : 1 ≤ inner.length := by
    cases inner with
    | nil => exact absurd rfl hne
    | cons x xs => simp
  simp only [stripFromF, splitAtGt_append inner rest hinner, if_pos hone]
  rw [if_pos trivial]
  exact stripFromF_congr _ _ rest
    (by simp only [List.length_append, List.length_cons]; omega) (Nat.le_refl _)

theorem stripFrom_tail_fragment (v : List ℕ) (hv : ∀ c ∈ v, c ≠ 60 ∧ c ≠ 62) :
    stripFrom (60 :: v) = [] := by
  unfold stripFrom
  show stripFromF (v.length + 1) (60 :: v) = []
  simp only [stripFromF, splitAtGt_none v (fun c hc => (hv c hc).2), if_pos trivial]

theorem stripTags_head_fragment (a rest : List ℕ)
    (ha : ∀ c ∈ a, c ≠ 60 ∧ c ≠ 62) :
    stripTags (a ++ 62 :: rest) = stripFrom rest := by
  have htw : (a ++ 62 :: rest).takeWhile (fun c => c ≠ 60 && c ≠ 62) = a := by
    rw [List.takeWhile_append_of_pos (by
      intro c hc
      have h := ha c hc
      simp [h.1, h.2])]
    rw [List.takeWhile_cons_of_neg (by simp)]
    exact List.append_nil a
  simp only [stripTags]
  rw [htw, List.drop_left]

/-- Claim C8 (confirmed): the tag-stripping rule removes (1) a fragment at
the very start made of non-angle-bracket bytes followed by `>` — scanning
then continues on the remainder with the unanchored alternatives; (2) a
complete `<...>` tag met by the scan (nonempty body free of `>`), resuming
after it; (3) a fragment at the very end consisting of `<` followed by
non-angle-bracket bytes with no closing `>` — removed to the end of the
block.  In particular, the block `"sometext<em"` strips to `"sometext"`. -/
theorem C8_tag_stripping :
    (∀ (a rest : List ℕ), (∀ c ∈ a, c ≠ 60 ∧ c ≠ 62) →
      stripTags (a ++ 62 :: rest) = stripFrom rest) ∧
    (∀ (inner rest : List ℕ), inner ≠ [] → (∀ c ∈ inner, c ≠ 62) →
      stripFrom (60 :: (inner ++ 62 :: rest)) = stripFrom rest) ∧
    (∀ (v : List ℕ), (∀ c ∈ v, c ≠ 60 ∧ c ≠ 62) → stripFrom (60 :: v) = []) ∧
    stripTags [115, 111, 109, 101, 116, 101, 120, 116, 60, 101, 109] =
      [115, 111, 109, 101, 116, 101, 120, 116] :=
  ⟨stripTags_head_fragment, stripFrom_cons_tag, stripFrom_tail_fragment, by decide⟩

/-- Witness for C8: the start fragment `"a>"`, the complete tag `"<em>"` and
the trailing fragment `"<em"` are each removed. -/
theorem C8_witness :
    stripTags ([97] ++ 62 :: [98, 60, 99, 100, 62, 101]) =
      stripFrom [98, 60, 99, 100, 62, 101] ∧
    stripFrom (60 :: ([101, 109] ++ 62 :: [120])) = stripFrom [120] ∧
    stripFrom (60 :: [101, 109]) = [] :=
  ⟨C8_tag_stripping.1 [97] _ (by decide),
   C8_tag_stripping.2.1 [101, 109] [120] (by decide) (by decide),
   C8_tag_stripping.2.2.1 [101, 109] (by decide)⟩

instance : IsTotal MatchSpan spanLE := ⟨fun a b => Nat.le_total a.s b.s⟩

instance : IsTrans MatchSpan spanLE := ⟨fun _ _ _ hab hbc => Nat.le_trans hab hbc⟩

theorem insertionSort_eq_of_perm (ms1 ms2 : List MatchSpan)
    (hperm : ms1.Perm ms2) (hnd : ms1.Pairwise (fun a b => a.s ≠ b.s)) :
    List.insertionSort spanLE ms1 = List.insertionSort spanLE ms2 := by
  have hperm' : (List.insertionSort spanLE ms1).Perm (List.insertionSort spanLE ms2) :=
    ((List.perm_insertionSort spanLE ms1).trans hperm).trans
      (List.perm_insertionSort spanLE ms2).symm
  refine List.Perm.eq_of_sorted ?_ (List.sorted_insertionSort spanLE ms1)
    (List.sorted_insertionSort spanLE ms2) hperm'
  intro a b ha hb hab hba
  by_contra hne
  have ha' : a ∈ ms1 := (List.perm_insertionSort spanLE ms1).subset ha
  have hb' : b ∈ ms1 := hperm.symm.subset ((List.perm_insertionSort spanLE ms2).subset hb)
  exact hnd.forall (fun x y hxy => hxy.symm) ha' hb' hne (Nat.le_antisymm hab hba)

/-- Claim C9: with spans carrying pairwise distinct start offsets (as
`finditer` produces them: successive matches begin strictly later), the
rendered preview output is invariant under any permutation of the span list,
because the renderer sorts by start offset before merging. -/
theorem C9_order_invariance (lead lag : ℕ) (content : List ℕ)
    (ms1 ms2 : List MatchSpan) (printed0 : Bool) (hperm : ms1.Perm ms2)
    (hnd : ms1.Pairwise (fun a b => a.s ≠ b.s)) :
    print_previews lead lag content ms1 printed0 =
      print_previews lead lag content ms2 printed0 := by
  unfold print_previews
  have hlen : ms1.length = ms2.length := hperm.length_eq
  by_cases h : ms1.length < 1
  · rw [if_pos h, if_pos (hlen ▸ h)]
  · rw [if_neg h, if_neg (hlen ▸ h)]
    rw [insertionSort_eq_of_perm ms1 ms2 hperm hnd]

/-- Witness for C9. -/
theorem C9_witness :
    print_previews 1 1 [97, 98, 99, 100, 101, 102, 103] [⟨5, 6⟩, ⟨1, 2⟩] false =
      print_previews 1 1 [97, 98, 99, 100, 101, 102, 103] [⟨1, 2⟩, ⟨5, 6⟩] false :=
  C9_order_invariance 1 1 [97, 98, 99, 100, 101, 102, 103]
    [⟨5, 6⟩, ⟨1, 2⟩] [⟨1, 2⟩, ⟨5, 6⟩] false (by decide) (by decide)

theorem pyClamp_of_nonneg (n a : ℤ) (h0 : 0 ≤ a) (hn : a ≤ n) :
    ((pyClamp n a : ℕ) : ℤ) = a := by
  unfold pyClamp
  rw [if_neg (by omega)]
  rw [min_eq_left hn]
  exact Int.toNat_of_nonneg h0

theorem pyFindNl_found (block : List Char) (a b r : ℤ)
    (hr : pyFindNl block a b = r) (hne : r ≠ -1) (h0 : 0 ≤ a)
    (hlen : a ≤ (block.length : ℤ)) :
    ∃ j : ℕ, r = (j : ℤ) ∧ a ≤ (j : ℤ) ∧ j < block.length ∧
      block[j]? = some '\n' := by
  simp only [pyFindNl] at hr
  cases hfi : ((block.drop (pyClamp block.length a)).take
      (pyClamp block.length b - pyClamp block.length a)).findIdx?
      (fun c => c = '\n') with
  | none =>
    rw [hfi] at hr
    exact absurd hr.symm hne
  | some k =>
    rw [hfi] at hr
    obtain ⟨hk, hp, -⟩ := List.findIdx?_eq_some_iff_getElem.mp hfi
    have hwin : ((block.drop (pyClamp block.length a)).take
        (pyClamp block.length b - pyClamp block.length a))[k]? =
        some (((block.drop (pyClamp block.length a)).take
        (pyClamp block.length b - pyClamp block.length a))[k]) :=
      List.getElem?_eq_getElem hk
    have hkN : k < pyClamp (block.length : ℤ) b - pyClamp (block.length : ℤ) a := by
      have := hk
      rw [List.length_take] at this
      omega
    rw [List.getElem?_take] at hwin
    rw [if_pos hkN] at hwin
    rw [List.getElem?_drop] at hwin
    have hchar : ((block.drop (pyClamp block.length a)).take
        (pyClamp block.length b - pyClamp block.length a))[k] = '\n' := by
      have := of_decide_eq_true hp
      exact this
    rw [hchar] at hwin
    have hjlt : pyClamp block.length a + k < block.length := by
      by_contra hge
      rw [List.getElem?_eq_none (Nat.le_of_not_lt hge)] at hwin
      cases hwin
    refine ⟨pyClamp block.length a + k, ?_, ?_, hjlt, hwin⟩
    · rw [← hr]
      push_cast
      rw [pyClamp_of_nonneg block.length a h0 hlen]
    · have := pyClamp_of_nonneg block.length a h0 hlen
      push_cast
      omega

theorem pySliceI_newline (block : List Char) (j : ℕ) (hj : j < block.length)
    (hc : block[j]? = some '\n') :
    pySliceI block (j : ℤ) ((j : ℤ) + 1) = ['\n'] := by
  simp only [pySliceI]
  have hs : pyClamp block.length (j : ℤ) = j := by
    have := pyClamp_of_nonneg block.length (j : ℤ) (by omega) (by omega)
    omega
  have he : pyClamp block.length ((j : ℤ) + 1) = j + 1 := by
    have := pyClamp_of_nonneg block.length ((j : ℤ) + 1) (by omega) (by omega)
    omega
  rw [hs, he]
  have hd : block.drop j = block[j] :: block.drop (j + 1) :=
    List.drop_eq_getElem_cons hj
  rw [hd]
  have : j + 1 - j = 1 := by omega
  rw [this]
  have hget : block[j] = '\n' := by
    rw [List.getElem?_eq_getElem hj] at hc
    exact Option.some.inj hc
  rw [hget]
  rfl

theorem wrap_advance (w : ℤ) (hw : 5 ≤ w) (block : List Char) (offs idx : ℤ)
    (h0 : 0 ≤ offs) (hlen : offs ≤ (block.length : ℤ))
    (hidx : idx = (if pyFindNl block offs (offs + w - 4) = -1 then offs + w - 4
      else pyFindNl block offs (offs + w - 4))) :
    offs + 1 ≤ (if pySliceI block idx (idx + 1) = ['\n'] then idx + 1 else idx) := by
  by_cases hfound : pyFindNl block offs (offs + w - 4) = -1
  · rw [if_pos hfound] at hidx
    split <;> omega
  · rw [if_neg hfound] at hidx
    obtain ⟨j, hj, haj, hjlt, hnl⟩ :=
      pyFindNl_found block offs (offs + w - 4) _ rfl hfound h0 hlen
    rw [hidx, hj]
    rw [if_pos (pySliceI_newline block j hjlt hnl)]
    omega

theorem wrapGo_terminates (w : ℤ) (hw : 5 ≤ w) (block : List Char) :
    ∀ (f : ℕ) (offs : ℤ) (lines : List (List Char)), 0 ≤ offs → 1 ≤ f →
      (block.length : ℤ) + 2 - offs ≤ (f : ℤ) →
      ∃ r, wrapGo w block f offs lines = some r := by
  intro f
  induction f with
  | zero =>
    intro offs lines _ h1 _
    exact absurd h1 (by omega)
  | succ f ih =>
    intro offs lines h0 h1 hfuel
    by_cases hoffs : offs ≤ (block.length : ℤ)
    · simp only [wrapGo]
      rw [if_pos hoffs]
      generalize hidx : (if pyFindNl block offs (offs + w - 4) = -1 then offs + w - 4
        else pyFindNl block offs (offs + w - 4)) = idx
      have hadv := wrap_advance w hw block offs idx h0 hoffs hidx.symm
      have hf1 : 1 ≤ f := by
        push_cast at hfuel
        omega
      by_cases hsl : pySliceI block idx (idx + 1) = ['\n']
      · rw [if_pos hsl] at hadv ⊢
        exact ih (idx + 1) (lines ++ [[' ', ' ', ' ', ' '] ++ pySliceI block offs idx])
          (by omega) hf1 (by push_cast at hfuel; omega)
      · rw [if_neg hsl] at hadv ⊢
        exact ih idx (lines ++ [[' ', ' ', ' ', ' '] ++ pySliceI block offs idx])
          (by omega) hf1 (by push_cast at hfuel; omega)
    · refine ⟨lines, ?_⟩
      simp only [wrapGo]
      rw [if_neg hoffs]

theorem pyFindNl_a_neg (offs fin : ℤ) (_ho : offs ≤ 0) (hf : fin ≤ 0) :
    pyFindNl ['a'] offs fin = -1 := by
  simp only [pyFindNl]
  have he : pyClamp (['a'] : List Char).length fin = 0 := by
    simp only [pyClamp, List.length_singleton]
    split <;> omega
  rw [he]
  simp

theorem pySliceI_a_short (i : ℤ) (hi : i ≤ 0) :
    pySliceI ['a'] i (i + 1) ≠ ['\n'] := by
  by_cases h0 : i = 0
  · subst h0
    decide
  · have hneg : i ≤ -1 := by omega
    have hs : pySliceI ['a'] i (i + 1) = [] := by
      simp only [pySliceI]
      have he : pyClamp (['a'] : List Char).length (i + 1) = 0 := by
        simp only [pyClamp, List.length_singleton]
        split <;> omega
      rw [he]
      simp
    rw [hs]
    decide

theorem wrapGo_diverges (w : ℤ) (hw : w ≤ 4) :
    ∀ (f : ℕ) (offs : ℤ) (lines : List (List Char)), offs ≤ 0 →
      wrapGo w ['a'] f offs lines = none := by
  intro f
  induction f with
  | zero => intro offs lines _; rfl
  | succ f ih =>
    intro offs lines ho
    simp only [wrapGo]
    rw [if_pos (by simp only [List.length_singleton]; omega :
      offs ≤ ((['a'] : List Char).length : ℤ))]
    rw [pyFindNl_a_neg offs (offs + w - 4) ho (by omega)]
    rw [if_pos rfl]
    rw [if_neg (pySliceI_a_short (offs + w - 4) (by omega))]
    exact ih (offs + w - 4) _ (by omega)

/-- Claim C10 (confirmed): the `_wrap` loop terminates on every input string
when `output_width ≥ 5` — each iteration advances `offs` by at least one, so
`len(block) + 2` iterations always suffice — while for every
`output_width ≤ 4` there is a non-empty input (the one-character string
`"a"`, whose current character is never a newline) on which the offset never
advances past its starting region and the loop runs forever (`none` for
every fuel). -/
theorem C10_wrap_termination :
    (∀ (w : ℤ) (block : List Char), 5 ≤ w →
      ∃ r, pyWrap w block (block.length + 2) = some r) ∧
    (∀ (w : ℤ), w ≤ 4 →
      ∀ (f : ℕ) (offs : ℤ) (lines : List (List Char)), offs ≤ 0 →
        wrapGo w ['a'] f offs lines = none) := by
  constructor
  · intro w block hw
    exact wrapGo_terminates w hw block (block.length + 2) 0 [] (by omega)
      (by omega) (by push_cast; omega)
  · intro w hw f offs lines ho
    exact wrapGo_diverges w hw f offs lines ho

/-- Witness for C10: width 80 wraps `"hi"`; width 4 never finishes on
`"a"`. -/
theorem C10_witness :
    (∃ r, pyWrap 80 ['h', 'i'] ((['h', 'i'] : List Char).length + 2) = some r) ∧
    wrapGo 4 ['a'] 6 0 [] = none :=
  ⟨C10_wrap_termination.1 80 ['h', 'i'] (by decide),
   C10_wrap_termination.2 4 (by decide) 6 0 [] (by decide)⟩
